import Mathlib

/-!
# Verification of the personal-rag-kb ingestion and query pipeline

Shallow embedding of the TypeScript sources of the `personal-rag-kb`
repository: the chunker and batch embedder (`src/embedder.ts`), the
per-target metadata store (`src/database.ts` variant taking a db path,
SQLite semantics made explicit), the vector store (`src/vector-store.ts`),
the file-lock and the ingestion coordinator (`src/ingest.ts`), and the
query engine (`src/classifier.ts`, `answerQuery`).

Machine integers do not occur on the verified paths; JavaScript string
lengths are modelled as character counts (all inputs of interest are
ASCII, where the two coincide).  External collaborators (extraction,
classification, LLM providers, the vector database, the process table
and the clock) are modelled as explicit oracle values or functions
carried in an environment record; everything else is translated from
the source, statement by statement.
-/

namespace RagKb

/-! ## Chunker (`src/embedder.ts`, `chunkContent`)

The sentence splitter models the JavaScript
`content.split(/(?<=[.!?])\s+/)`: every maximal whitespace run that is
immediately preceded by `.`, `!` or `?` is a separator and is removed.
It is written as a character-by-character state machine (`ssGo`), with a
Boolean flag meaning "currently consuming a separator run", so that the
recursion is structural and the function evaluates by `decide`/`rfl`. -/

/-- Whitespace test for the `\s` character class of the split regex
(the common ASCII cases; inputs of interest contain no exotic space). -/
def isWsChar (c : Char) : Bool :=
  c = ' ' || c = '\t' || c = '\n' || c = '\r' || c = '\x0b' || c = '\x0c'

/-- Sentence-terminator test for the `(?<=[.!?])` lookbehind. -/
def isTermChar (c : Char) : Bool :=
  c = '.' || c = '!' || c = '?'

/-- Is the previous character a sentence terminator? -/
def prevIsTerm : Option Char → Bool
  | some c => isTermChar c
  | none => false

/-- State machine for the sentence split.  `skip = true` means we are in
the middle of a separator whitespace run (already emitted the sentence
before it); `prev` is the previously consumed character; `acc` holds the
current sentence, reversed. -/
def ssGo : Bool → Option Char → List Char → List Char → List (List Char)
  | _, _, acc, [] => [acc.reverse]
  | true, _, acc, c :: rest =>
      if isWsChar c then ssGo true none acc rest
      else ssGo false (some c) (c :: acc) rest
  | false, prev, acc, c :: rest =>
      if isWsChar c && prevIsTerm prev then
        acc.reverse :: ssGo true none [] rest
      else ssGo false (some c) (c :: acc) rest

/-- `content.split(/(?<=[.!?])\s+/)` on a character list.  Like the
JavaScript split, the result is never empty, and splitting the empty
string yields one empty sentence. -/
def sentSplit (content : List Char) : List (List Char) :=
  ssGo false none [] content

/-- `currentChunk += (currentChunk ? " " : "") + sentence`. -/
def joinS (cur s : List Char) : List Char :=
  if cur = [] then s else cur ++ ' ' :: s

/-- A chunk of the source text: `{ content, chunk_index }`. -/
structure Chunk where
  content : String
  chunk_index : Nat
deriving DecidableEq, Repr

/-- The sentence-accumulation loop of `chunkContent` (character-list
level).  Returns the closed chunks, the trailing buffer and the next
index.  On overflow the next buffer is seeded with the last 200
characters of the closed chunk (`substring(max(0, len - 200))`, which is
`List.drop (len - 200)` with truncated subtraction) plus a space plus
the sentence that triggered the break. -/
def chunkLoop : List (List Char) → List Char → Nat →
    List (List Char × Nat) × List Char × Nat
  | [], cur, idx => ([], cur, idx)
  | s :: rest, cur, idx =>
      if cur.length + s.length ≤ 800 then
        chunkLoop rest (joinS cur s) idx
      else
        let nc := cur.drop (cur.length - 200) ++ ' ' :: s
        let r := chunkLoop rest nc (idx + 1)
        ((cur, idx) :: r.1, r.2)

/-- The tail handling of `chunkContent`: a trailing buffer shorter than
100 characters is appended (with a space) to the last chunk when one
exists, otherwise emitted as a final chunk. -/
def chunkFinish (r : List (List Char × Nat) × List Char × Nat) :
    List (List Char × Nat) :=
  let cs := r.1
  let cur := r.2.1
  let idx := r.2.2
  if cur ≠ [] then
    if cur.length < 100 ∧ cs ≠ [] then
      cs.dropLast ++ [((cs.getLastD ([], 0)).1 ++ ' ' :: cur,
                       (cs.getLastD ([], 0)).2)]
    else cs ++ [(cur, idx)]
  else cs

/-- `chunkContent` from `src/embedder.ts` (chunk size 800, overlap 200,
minimum size 100). -/
def chunkContent (content : String) : List Chunk :=
  (chunkFinish (chunkLoop (sentSplit content.data) [] 0)).map
    (fun p => { content := String.mk p.1, chunk_index := p.2 })

/-! Reconstruction operation for claim C6: concatenate the chunk texts,
dropping from every chunk after the first the overlap window it was
seeded with, namely the final `min 200 (previous chunk length)`
characters of the previous chunk. -/

/-- Drop the overlap seed of each successive chunk and concatenate;
`prev` is the chunk the next overlap was taken from. -/
def reconAux (prev : List Char) : List (List Char) → List Char
  | [] => []
  | c :: rest => c.drop (min 200 prev.length) ++ reconAux c rest

/-- Concatenation of chunk texts with the known overlap windows
removed. -/
def reconstruct : List (List Char) → List Char
  | [] => []
  | c :: rest => c ++ reconAux c rest

/-- The sentence sequence rejoined the way the chunker joins it: with
single spaces (the split discards the original separator whitespace). -/
def joinSentences (sents : List (List Char)) : List Char :=
  sents.foldl joinS []

/-- Length of the first sentence (0 for an empty list). -/
def firstLen : List (List Char) → Nat
  | [] => 0
  | s :: _ => s.length

/-! ## Embedder (`src/embedder.ts`, `embedChunks`)

Embedding vectors are sequences of rationals (only produced, stored and
compared, never operated on arithmetically, so `ℚ` is a faithful stand-in
for the JavaScript numbers).  The process-wide `LRUCache` (capacity
1000, keyed by exact text) is modelled explicitly: `get` refreshes
recency, `set` inserts at the front and evicts the least recently used
entry beyond the capacity.  The two provider backends are oracles: the
Google call is a function of the attempt number (1..3) and the batch,
the OpenAI fallback a function of the batch, each returning `none` for a
thrown error. -/

/-- An embedded chunk: `Chunk` plus vector and provenance. -/
structure EmbeddedChunk extends Chunk where
  embedding : List ℚ
  embedding_dim : Nat
  embedding_provider : String
  embedding_model : String
deriving DecidableEq, Repr

/-- The `lru-cache` instance, most recently used first. -/
structure LRU where
  entries : List (String × List ℚ)
deriving DecidableEq, Repr

/-- `cache.get(key)`: the cached value, if any, and the cache with the
hit entry moved to the front. -/
def LRU.get (c : LRU) (k : String) : Option (List ℚ) × LRU :=
  match c.entries.find? (fun e => e.1 = k) with
  | none => (none, c)
  | some e => (some e.2, ⟨e :: c.entries.filter (fun e2 => ¬ e2.1 = k)⟩)

/-- `cache.set(key, value)` with `max: 1000`. -/
def LRU.set (c : LRU) (k : String) (v : List ℚ) : LRU :=
  ⟨((k, v) :: c.entries.filter (fun e => ¬ e.1 = k)).take 1000⟩

/-- Oracles for the two embedding backends. -/
structure EmbEnv where
  /-- Result of the Google batch call, per retry attempt (1, 2, 3). -/
  google : Nat → List String → Option (List (List ℚ))
  /-- Whether `OPENAI_API_KEY` is configured (`openai` non-null). -/
  openaiConfigured : Bool
  /-- Result of the OpenAI fallback call. -/
  openai : List String → Option (List (List ℚ))

/-- Model names from `src/config.ts`. -/
def primaryEmbeddingModel : String := "embedding-001"

/-- Fallback embedding model name from `src/config.ts`. -/
def fallbackEmbeddingModel : String := "text-embedding-3-small"

/-- The retry loop: up to three Google attempts, first success wins. -/
def tryGoogle (env : EmbEnv) (contents : List String) :
    Option (List (List ℚ)) :=
  match env.google 1 contents with
  | some e => some e
  | none =>
      match env.google 2 contents with
      | some e => some e
      | none => env.google 3 contents

/-- Cache-partition pass of `embedChunks`: walk the batch (`forEach`
with index), look each chunk up in the cache, record hits in the result
map and misses in `contentToEmbed` / `originalIndices` (in order). -/
def cachePass (cache : LRU) (idx : Nat) :
    List Chunk → LRU × (Nat → Option EmbeddedChunk) × List String × List Nat
  | [] => (cache, fun _ => none, [], [])
  | c :: rest =>
      let g := cache.get c.content
      match g.1 with
      | some emb =>
          let r := cachePass g.2 (idx + 1) rest
          (r.1,
           fun j => if j = idx then
             some { toChunk := c, embedding := emb,
                    embedding_dim := emb.length,
                    embedding_provider := "google",
                    embedding_model := primaryEmbeddingModel }
           else r.2.1 j,
           r.2.2.1, r.2.2.2)
      | none =>
          let r := cachePass g.2 (idx + 1) rest
          (r.1, r.2.1, c.content :: r.2.2.1, idx :: r.2.2.2)

/-- Merge pass: `embeddings.forEach((embedding, idx) => ...)` — cache
each produced vector under its source text and store the embedded chunk
at its original index. -/
def mergePass (batchChunks : List Chunk) (provider modelName : String)
    (cache : LRU) (res : Nat → Option EmbeddedChunk) :
    List (List ℚ × Nat) → LRU × (Nat → Option EmbeddedChunk)
  | [] => (cache, res)
  | (emb, oi) :: rest =>
      let c := batchChunks.getD oi { content := "", chunk_index := 0 }
      mergePass batchChunks provider modelName
        (cache.set c.content emb)
        (fun j => if j = oi then
          some { toChunk := c, embedding := emb,
                 embedding_dim := emb.length,
                 embedding_provider := provider,
                 embedding_model := modelName }
         else res j)
        rest

/-- Final pass: `for (j = 0; j < batchChunks.length; j++) if (has j)
push` — collect the present results in index order, `n` indices starting
at `start`. -/
def collectPass (res : Nat → Option EmbeddedChunk) :
    Nat → Nat → List EmbeddedChunk
  | _, 0 => []
  | start, n + 1 =>
      match res start with
      | some ec => ec :: collectPass res (start + 1) n
      | none => collectPass res (start + 1) n

/-- One batch of `embedChunks`: cache partition, provider calls with
retry and fallback, merge (only when the produced vector count matches
the uncached count), ordered collection. -/
def embedBatch (env : EmbEnv) (cache : LRU) (batchChunks : List Chunk) :
    LRU × List EmbeddedChunk :=
  let cp := cachePass cache 0 batchChunks
  let cache1 := cp.1
  let res := cp.2.1
  let contentToEmbed := cp.2.2.1
  let originalIndices := cp.2.2.2
  if contentToEmbed = [] then
    (cache1, collectPass res 0 batchChunks.length)
  else
    let gr := tryGoogle env contentToEmbed
    let provider := if gr.isSome then "google" else "openai"
    let modelName :=
      if gr.isSome then primaryEmbeddingModel else fallbackEmbeddingModel
    let embeddings :=
      match gr with
      | some e => some e
      | none => if env.openaiConfigured then env.openai contentToEmbed else none
    match embeddings with
    | some e =>
        if e.length = contentToEmbed.length then
          let m := mergePass batchChunks provider modelName cache1 res
            (e.zip originalIndices)
          (m.1, collectPass m.2 0 batchChunks.length)
        else (cache1, collectPass res 0 batchChunks.length)
    | none => (cache1, collectPass res 0 batchChunks.length)

/-- Fuel-driven slicing into batches of `n` (the
`for (i = 0; i < len; i += batchSize)` pattern); fuel is the list
length, so the recursion is structural and computable. -/
def batchesGo (n : Nat) : Nat → List α → List (List α)
  | _, [] => []
  | 0, l => [l]
  | fuel + 1, l => l.take n :: batchesGo n fuel (l.drop n)

/-- Slice a list into consecutive batches of size `n`. -/
def batchesOf (n : Nat) (l : List α) : List (List α) :=
  batchesGo n l.length l

/-- Loop of `embedChunks` over the batches, threading the cache. -/
def embedBatches (env : EmbEnv) : LRU → List (List Chunk) →
    LRU × List EmbeddedChunk
  | cache, [] => (cache, [])
  | cache, b :: rest =>
      let r := embedBatch env cache b
      let r2 := embedBatches env r.1 rest
      (r2.1, r.2 ++ r2.2)

/-- `embedChunks` from `src/embedder.ts` (batch size 10).  The 200 ms
inter-batch delay has no observable effect in the model. -/
def embedChunks (env : EmbEnv) (cache : LRU) (chunks : List Chunk) :
    LRU × List EmbeddedChunk :=
  embedBatches env cache (batchesOf 10 chunks)

/-! ## Vector store (`src/vector-store.ts`)

A ChromaDB collection is a list of records; `collection.add` appends.
The external add call can fail (network, server): that outcome is the
`addOk` oracle argument.  Record ids are built exactly as in the source:
`` `chunk_${chunk.source_id}_${chunk.id}` ``. -/

/-- A chunk row prepared for the vector store
(`chunksWithIds` in `ingestSource`). -/
structure ChunkWithMeta where
  id : Nat
  source_id : Nat
  content : String
  url : String
  title : String
  tags : List String
deriving DecidableEq, Repr

/-- One record of a ChromaDB collection: id, embedding and the
denormalized metadata (`tags` flattened with `join(',')`). -/
structure VectorRecord where
  key : String
  embedding : List ℚ
  source_id : Nat
  content : String
  url : String
  title : String
  tags : String
deriving DecidableEq, Repr

/-- The record id `` `chunk_${chunk.source_id}_${chunk.id}` ``. -/
def recordKey (c : ChunkWithMeta) : String :=
  "chunk_" ++ toString c.source_id ++ "_" ++ toString c.id

/-- Build the parallel ids/metadatas arrays and zip them with the
embeddings into records. -/
def mkRecords (chunks : List ChunkWithMeta) (embeddings : List (List ℚ)) :
    List VectorRecord :=
  List.zipWith
    (fun c e =>
      { key := recordKey c, embedding := e, source_id := c.source_id,
        content := c.content, url := c.url, title := c.title,
        tags := String.intercalate "," c.tags })
    chunks embeddings

/-- `addChunksToVectorStore` from `src/vector-store.ts`: throws when the
chunk and embedding counts differ, otherwise adds the records to the
collection in batches of 100 (`addOk = false` models a failing
`collection.add` call). -/
def addChunksToVectorStore (addOk : Bool) (store : List VectorRecord)
    (chunks : List ChunkWithMeta) (embeddings : List (List ℚ)) :
    Except String (List VectorRecord) :=
  if chunks.length ≠ embeddings.length then
    .error "Number of chunks and embeddings must match."
  else if ¬ addOk then .error "collection add failed"
  else
    .ok ((batchesOf 100 (mkRecords chunks embeddings)).foldl
      (fun st b => st ++ b) store)

/-! ## Metadata store (`src/database.ts`, path-keyed variant)

One SQLite database per target.  The schema of `initializeSchema` is
carried by the `Db` type itself: the `sources` columns (with their three
UNIQUE constraints and the AUTOINCREMENT id) and the `chunks` columns
(with the enforced foreign key to `sources`).  `tags` is stored as a
JSON array of strings; the model keeps the list itself (the JSON
round-trip of `getAllUniqueTags` is lossless).  AUTOINCREMENT ids are
modelled by monotone counters, which SQLite guarantees are never reused
(`sqlite_sequence`), and which a rolled-back transaction restores. -/

/-- A row of the `sources` table. -/
structure SourceRow where
  id : Nat
  url : String
  normalized_url : String
  title : String
  source_type : String
  raw_content : String
  content_hash : String
  tags : List String
deriving DecidableEq, Repr

/-- A row of the `chunks` table. -/
structure ChunkRow where
  id : Nat
  source_id : Nat
  chunk_index : Nat
  content : String
deriving DecidableEq, Repr

/-- One target's SQLite database. -/
structure Db where
  sources : List SourceRow
  chunks : List ChunkRow
  nextSourceId : Nat
  nextChunkId : Nat
deriving DecidableEq, Repr

/-- A freshly created database (AUTOINCREMENT starts at 1). -/
def Db.empty : Db := ⟨[], [], 1, 1⟩

/-- The extraction collaborator's output (`ExtractedContent` in
`src/extractor.ts`). -/
structure ExtractedContent where
  title : String
  content : String
  originalContent : String
  sourceType : String
  fileExtension : String
  source : String
  normalizedSource : String
  contentHash : String
deriving DecidableEq, Repr

/-- The `sources` row written by the transaction of `ingestSource`. -/
def mkSourceRow (id : Nat) (ext : ExtractedContent) (tags : List String) :
    SourceRow :=
  { id := id, url := ext.source, normalized_url := ext.normalizedSource,
    title := ext.title, source_type := ext.sourceType,
    raw_content := ext.content, content_hash := ext.contentHash,
    tags := tags }

/-- `INSERT INTO sources ...`: rejected when one of the three UNIQUE
constraints (`url`, `normalized_url`, `content_hash`) is violated;
otherwise appends the row under the next AUTOINCREMENT id. -/
def insertSourceRow (db : Db) (ext : ExtractedContent) (tags : List String) :
    Except String (Db × Nat) :=
  if db.sources.any (fun s =>
      s.url = ext.source || s.normalized_url = ext.normalizedSource ||
      s.content_hash = ext.contentHash) then
    .error "UNIQUE constraint failed"
  else
    .ok ({ db with
            sources := db.sources ++ [mkSourceRow db.nextSourceId ext tags],
            nextSourceId := db.nextSourceId + 1 }, db.nextSourceId)

/-- `INSERT INTO chunks ...`: rejected when the `source_id` foreign key
does not resolve (`PRAGMA foreign_keys = ON`). -/
def insertChunkRow (db : Db) (sid idx : Nat) (content : String) :
    Except String (Db × Nat) :=
  if db.sources.any (fun s => s.id = sid) then
    .ok ({ db with
            chunks := db.chunks ++ [⟨db.nextChunkId, sid, idx, content⟩],
            nextChunkId := db.nextChunkId + 1 }, db.nextChunkId)
  else .error "FOREIGN KEY constraint failed"

/-- The chunk-insert loop of the transaction (`stmt.run` per embedded
chunk); `failAt` injects external statement failures (I/O, disk), `k`
numbers the statements of the transaction, and only truthy `lastID`s are
pushed onto `insertedChunkIds`. -/
def insertChunksLoop (failAt : Nat → Bool) (db : Db) (sid : Nat) :
    List EmbeddedChunk → Nat → Except String (Db × List Nat)
  | [], _ => .ok (db, [])
  | c :: rest, k =>
      match (if failAt k then .error "statement failed"
             else insertChunkRow db sid c.chunk_index c.content :
             Except String (Db × Nat)) with
      | .error e => .error e
      | .ok (db1, cid) =>
          match insertChunksLoop failAt db1 sid rest (k + 1) with
          | .error e => .error e
          | .ok (db2, cids) =>
              .ok (db2, if cid ≠ 0 then cid :: cids else cids)

/-- The `BEGIN TRANSACTION … COMMIT` / catch-`ROLLBACK` block of
`ingestSource` (lines 165–186 of `src/ingest.ts`): insert the source
row (statement 0), bail out on a falsy `lastID`, insert one chunk row
per embedded chunk (statements 1…), and on any failure roll the database
back to its pre-transaction state. -/
def metadataTxn (failAt : Nat → Bool) (db : Db) (ext : ExtractedContent)
    (finalTags : List String) (ecs : List EmbeddedChunk) :
    Db × Option (Nat × List Nat) :=
  match (if failAt 0 then .error "statement failed"
         else insertSourceRow db ext finalTags : Except String (Db × Nat)) with
  | .error _ => (db, none)
  | .ok (db1, sid) =>
      if sid = 0 then (db, none)
      else
        match insertChunksLoop failAt db1 sid ecs 1 with
        | .error _ => (db, none)
        | .ok (db2, cids) => (db2, some (sid, cids))

/-- `getAllUniqueTags` from `src/database.ts`: the distinct tags over
all sources of a database, in first-seen order (a JavaScript `Set`). -/
def getAllUniqueTags (db : Db) : List String :=
  ((db.sources.map SourceRow.tags).flatten).eraseDups

/-! ## Lock file (`src/ingest.ts`, lines 47–69)

The lock file is `Option LockFile`: presence on disk, modification time
(milliseconds) and the recorded process id (`none` when the content does
not parse as an integer, in which case `process.kill(NaN, 0)` throws and
the lock counts as stale).  The process table is the `alive` oracle. -/

/-- The on-disk lock file. -/
structure LockFile where
  mtime : Nat
  pid : Option Nat
deriving DecidableEq, Repr

/-- Does the recorded process id name a live process
(`process.kill(pid, 0)` succeeding)?  An unparseable pid throws. -/
def pidLive (alive : Nat → Bool) : Option Nat → Bool
  | some p => alive p
  | none => false

/-- `isLockStale` from `src/ingest.ts`: no file is not stale; a file
older than fifteen minutes is stale regardless of its pid; otherwise the
file is stale exactly when its recorded process is not alive. -/
def isLockStale (alive : Nat → Bool) (now : Nat) :
    Option LockFile → Bool
  | none => false
  | some l =>
      if now - l.mtime > 15 * 60 * 1000 then true
      else ¬ pidLive alive l.pid

/-- `createLock`: throws `already running` when a non-stale lock file
exists, otherwise (over)writes the lock with our pid. -/
def createLock (alive : Nat → Bool) (now : Nat) (lock : Option LockFile)
    (selfPid : Nat) : Except String LockFile :=
  if !(isLockStale alive now lock) && lock.isSome then
    .error "Ingestion is already running. Lock file exists."
  else .ok { mtime := now, pid := some selfPid }

/-! ## Ingestion coordinator (`src/ingest.ts`, `ingestSource`)

The three statically configured targets.  The world bundles all process
and disk state the coordinator touches: the lock file, one database,
one vector collection and one archive directory per target, whether each
target's repository directory exists, and the process-wide embedding
cache.  The environment carries the clock, the process table, our pid
and the external-collaborator oracles. -/

/-- The keys of the `TARGETS` record. -/
inductive TargetKey | pablo | paloma | reels
deriving DecidableEq, Repr

/-- `TARGETS[key]` lookup; unknown keys are skipped by the loop. -/
def TARGETS : String → Option TargetKey
  | "pablo" => some .pablo
  | "paloma" => some .paloma
  | "reels" => some .reels
  | _ => none

/-- The classification collaborator's parsed output. -/
structure Classification where
  tags : List String
  newTags : List String
  reasoning : String
deriving DecidableEq, Repr

/-- All state `ingestSource` reads or writes. -/
structure World where
  lock : Option LockFile
  db : TargetKey → Db
  vecs : TargetKey → List VectorRecord
  archived : TargetKey → List String
  repoExists : TargetKey → Bool
  cache : LRU

/-- Clock, process table and external collaborators of one
`ingestSource` run. -/
structure Env where
  now : Nat
  alive : Nat → Bool
  selfPid : Nat
  /-- `ingestFromSource(source)`: the extraction collaborator. -/
  extract : Except String ExtractedContent
  /-- `classifyContent(content, existingTags)`: LLM auto-tagging,
  a function of the existing-tag vocabulary it is shown. -/
  classify : List String → Except String Classification
  /-- Provider oracles for `embedChunks`. -/
  emb : EmbEnv
  /-- Injected SQLite statement failures, per target and statement. -/
  stmtFail : TargetKey → Nat → Bool
  /-- Whether the `collection.add` calls of this target succeed. -/
  addOk : TargetKey → Bool
  /-- Whether the archival file write of this target fails. -/
  archiveFail : TargetKey → Bool
  /-- The `YYYY-MM` directory name derived from the wall clock. -/
  dateDir : String

/-- Point update of the per-target database map. -/
def World.setDb (w : World) (tk : TargetKey) (d : Db) : World :=
  { w with db := fun t => if t = tk then d else w.db t }

/-- Point update of the per-target vector collection map. -/
def World.setVecs (w : World) (tk : TargetKey) (v : List VectorRecord) :
    World :=
  { w with vecs := fun t => if t = tk then v else w.vecs t }

/-- Point update of the per-target archive map. -/
def World.setArchived (w : World) (tk : TargetKey) (a : List String) :
    World :=
  { w with archived := fun t => if t = tk then a else w.archived t }

/-- `sanitizeFilename`: non-alphanumeric characters (other than `_`,
`-`, `.`) become `_`, truncated to 100 characters. -/
def sanitizeFilename (name : String) : String :=
  String.mk ((name.data.map (fun c =>
    if c.isAlpha || c.isDigit || c = '_' || c = '-' || c = '.' then c
    else '_')).take 100)

/-- First character upper-cased
(`sourceType.charAt(0).toUpperCase() + sourceType.slice(1)`). -/
def capitalizeFirst (s : String) : String :=
  match s.data with
  | [] => ""
  | c :: rest => String.mk (c.toUpper :: rest)

/-- The archive path
`{CapitalizedContentType}/{YYYY-MM}/{sourceId}-{sanitizedTitle}{ext}`
relative to the target's repository root. -/
def archivePath (env : Env) (ext : ExtractedContent) (sid : Nat) : String :=
  capitalizeFirst ext.sourceType ++ "/" ++ env.dateDir ++ "/" ++
    toString sid ++ "-" ++ sanitizeFilename ext.title ++ ext.fileExtension

/-- `chunksWithIds`: pair each embedded chunk with its inserted row id
(`insertedChunkIds[index]`, 0 standing for an out-of-range access) and
the denormalized source metadata. -/
def buildChunksWithIds (ecs : List EmbeddedChunk) (cids : List Nat)
    (sid : Nat) (ext : ExtractedContent) (finalTags : List String) :
    List ChunkWithMeta :=
  ecs.enum.map (fun p =>
    { id := cids.getD p.1 0, source_id := sid, content := p.2.content,
      url := ext.source, title := ext.title, tags := finalTags })

/-- The per-target body of the `for (const targetKey of targetKeys)`
loop: skip when the repository directory is missing; count an existing
source (same `normalized_url`) as already successful; run the metadata
transaction, rolling back and skipping the target on failure; add the
vectors, logging and skipping on failure; archive, logging and skipping
on failure; report success only after all three steps. -/
def processTarget (env : Env) (ext : ExtractedContent)
    (finalTags : List String) (ecs : List EmbeddedChunk)
    (w : World) (tk : TargetKey) : World × Bool :=
  if ¬ w.repoExists tk then (w, false)
  else
    let db := w.db tk
    if db.sources.any (fun s => s.normalized_url = ext.normalizedSource) then
      (w, true)
    else
      match metadataTxn (env.stmtFail tk) db ext finalTags ecs with
      | (db1, none) => (w.setDb tk db1, false)
      | (db1, some (sid, cids)) =>
          let w1 := w.setDb tk db1
          let chunksWithIds := buildChunksWithIds ecs cids sid ext finalTags
          let embeddings := ecs.map EmbeddedChunk.embedding
          match addChunksToVectorStore (env.addOk tk) (w1.vecs tk)
              chunksWithIds embeddings with
          | .error _ => (w1, false)
          | .ok newStore =>
              let w2 := w1.setVecs tk newStore
              if sid ≠ 0 then
                if env.archiveFail tk then (w2, false)
                else
                  (w2.setArchived tk
                    (w2.archived tk ++ [archivePath env ext sid]), true)
              else (w2, false)

/-- The target loop, accumulating `successfullyIngestedTargets` in
visit order (structural recursion; the recorded keys are exactly the
pushes of the JavaScript loop, in order). -/
def processTargets (env : Env) (ext : ExtractedContent)
    (finalTags : List String) (ecs : List EmbeddedChunk) :
    World → List String → World × List String
  | w, [] => (w, [])
  | w, k :: keys =>
      match TARGETS k with
      | none => processTargets env ext finalTags ecs w keys
      | some tk =>
          let r := processTarget env ext finalTags ecs w tk
          let pr := processTargets env ext finalTags ecs r.1 keys
          (pr.1, (if r.2 then [k] else []) ++ pr.2)

/-- The structured result of `ingestSource`. -/
structure IngestResult where
  success : Bool
  source : String
  targets : Option (List String) := none
  tags : Option (List String) := none
  chunks : Option Nat := none
  error : Option String := none
deriving DecidableEq, Repr

/-- `ingestSource` from `src/ingest.ts`: guard clause, lock creation
(whose `already running` throw lands in the outer catch), one-shot
extraction, classification against the reference target's vocabulary
(failure degrades to manual tags), one-shot chunking and embedding (zero
embedded chunks abort), the per-target write loop, and the `finally`
block that removes the lock file on every exit path past the guard. -/
def ingestSource (env : Env) (w : World) (source : String)
    (tags : List String) (targetKeys : List String) :
    World × IngestResult :=
  if source = "" then
    (w, { success := false, source := source,
          error := some "A source URL or file path is required." })
  else
    match createLock env.alive env.now w.lock env.selfPid with
    | .error msg =>
        ({ w with lock := none },
         { success := false, source := source,
           error := some ("An unexpected error occurred during ingestion: "
             ++ msg) })
    | .ok lk =>
        let w := { w with lock := some lk }
        match env.extract with
        | .error msg =>
            ({ w with lock := none },
             { success := false, source := source,
               error := some ("Extraction failed: " ++ msg) })
        | .ok ext =>
            let existingTags := getAllUniqueTags (w.db TargetKey.reels)
            let classificationTags :=
              match env.classify existingTags with
              | .ok c => c.tags
              | .error _ => []
            let finalTags := (tags ++ classificationTags).eraseDups
            let chunks := chunkContent ext.content
            let er := embedChunks env.emb w.cache chunks
            let w := { w with cache := er.1 }
            let embeddedChunks := er.2
            if embeddedChunks.length = 0 then
              ({ w with lock := none },
               { success := false, source := source,
                 error := some "No chunks were embedded." })
            else
              let pr := processTargets env ext finalTags embeddedChunks w
                targetKeys
              ({ pr.1 with lock := none },
               { success := ¬ pr.2.isEmpty, source := source,
                 targets := some pr.2, tags := some finalTags,
                 chunks := some embeddedChunks.length })

/-! ## Query engine (`src/classifier.ts`, `answerQuery`)

The ChromaDB query returns parallel nested arrays of metadata and
distances; the search call, the query embedding and the answer
generation are oracles.  Distances are rationals: only compared, never
operated on. -/

/-- Denormalized metadata stored with each vector. -/
structure Meta where
  source_id : Nat
  content : String
  url : String
  title : String
  tags : String
deriving DecidableEq, Repr

/-- The shape of `collection.query` results
(`metadatas[0]`, `distances[0]`). -/
structure SearchResults where
  metadatas : List (List (Option Meta))
  distances : List (List ℚ)

/-- Oracles of one `answerQuery` run. -/
structure QueryEnv where
  /-- `getEmbeddings([query])`. -/
  getEmb : Except String (List (List ℚ))
  /-- `queryVectorStore(collectionName, queryVector, 10, whereFilter)`;
  the filter is the tag list of the `$and`/`$contains` clause, `none`
  when no tags were requested. -/
  search : String → Option (List ℚ) → Option (List String) → SearchResults
  /-- `generateText(prompt)`. -/
  generate : Except String String

/-- One cited source of a query result. -/
structure QuerySource where
  url : String
  title : String
  content : String
  distance : ℚ
deriving DecidableEq, Repr

/-- The structured result of `answerQuery`. -/
structure QueryResult where
  success : Bool
  answer : Option String := none
  sources : Option (List QuerySource) := none
  error : Option String := none
deriving DecidableEq, Repr

/-- One step of the dedup loop: record the hit in the
insertion-ordered map unless a closer hit for the same url is already
stored (`!has || stored.distance > distance`); a `Map.set` on an
existing key keeps its position. -/
def dedupStep (m : List (String × Meta × ℚ)) (md : Meta) (d : ℚ) :
    List (String × Meta × ℚ) :=
  if m.any (fun e => e.1 = md.url) then
    m.map (fun e => if e.1 = md.url ∧ d < e.2.2 then (md.url, md, d) else e)
  else m ++ [(md.url, md, d)]

/-- One iteration of the dedup loop: skip hits with missing metadata or
a falsy url, otherwise apply `dedupStep`. -/
def dedupVisit (m : List (String × Meta × ℚ)) (h : Option Meta × ℚ) :
    List (String × Meta × ℚ) :=
  match h.1 with
  | none => m
  | some md => if md.url = "" then m else dedupStep m md h.2

/-- The dedup loop over the hits (`metadatas[i]`, `distances[i]`). -/
def dedupByUrl (hits : List (Option Meta × ℚ)) : List (Meta × ℚ) :=
  (hits.foldl dedupVisit []).map (fun e => e.2)

/-- Stable insertion of a hit into a distance-sorted list (the element
goes after every earlier element with distance less than or equal to
its own). -/
def insertByDist (x : Meta × ℚ) : List (Meta × ℚ) → List (Meta × ℚ)
  | [] => [x]
  | y :: rest => if y.2 ≤ x.2 then y :: insertByDist x rest else x :: y :: rest

/-- The stable `sort((a, b) => a.distance - b.distance)`. -/
def sortByDist (l : List (Meta × ℚ)) : List (Meta × ℚ) :=
  l.foldl (fun acc x => insertByDist x acc) []

/-- Steps (3) of `answerQuery`: deduplicate by source url, then sort
ascending by distance (`finalContextChunks`). -/
def dedupAndSort (hits : List (Option Meta × ℚ)) : List (Meta × ℚ) :=
  sortByDist (dedupByUrl hits)

/-- `answerQuery` from `src/classifier.ts` (the `QueryResult` variant):
embed the question (failure is fatal), search the target's collection,
return a successful no-context answer on an empty hit list, deduplicate
and sort, build the cited source list, generate the answer. -/
def answerQuery (env : QueryEnv) (query : String) (tags : List String)
    (target : String) : QueryResult :=
  if query = "" then
    { success := false, error := some "A query is required." }
  else
    match env.getEmb with
    | .error msg =>
        { success := false,
          error := some ("Failed to embed query: " ++ msg) }
    | .ok embeddings =>
        let queryVector := embeddings.head?
        let collectionName := target ++ "_kb"
        let whereFilter := if tags.isEmpty then none else some tags
        let sr := env.search collectionName queryVector whereFilter
        let metadatas := (sr.metadatas.head?).getD []
        let distances := (sr.distances.head?).getD []
        if metadatas.isEmpty then
          { success := true,
            answer := some "No relevant context found in the knowledge base.",
            sources := some [] }
        else
          let finalContextChunks := dedupAndSort (metadatas.zip distances)
          let sources := finalContextChunks.map (fun c =>
            { url := c.1.url, title := c.1.title, content := c.1.content,
              distance := c.2 : QuerySource })
          match env.generate with
          | .ok answer =>
              { success := true, answer := some answer,
                sources := some sources }
          | .error msg =>
              { success := false,
                error := some ("Failed to generate answer: " ++ msg) }

/-! ## Shared concrete fixtures

A small, fully concrete world and environment used by the witness
theorems: one short text source, a provider that embeds every text as
the vector `[1]`, three empty target databases. -/

/-- A concrete extraction result for a short two-sentence text file. -/
def sampleExt : ExtractedContent :=
  { title := "Title", content := "Hello world. This is a test.",
    originalContent := "Hello world. This is a test.", sourceType := "text",
    fileExtension := ".txt", source := "file.txt",
    normalizedSource := "file.txt", contentHash := "h1" }

/-- A provider environment whose Google backend always answers. -/
def sampleEmb : EmbEnv :=
  { google := fun _ batch => some (batch.map (fun _ => [(1 : ℚ)])),
    openaiConfigured := false, openai := fun _ => none }

/-- A fully cooperative concrete environment. -/
def sampleEnv : Env :=
  { now := 0, alive := fun _ => false, selfPid := 7,
    extract := .ok sampleExt,
    classify := fun _ => .ok ⟨["auto"], [], "because"⟩,
    emb := sampleEmb, stmtFail := fun _ _ => false, addOk := fun _ => true,
    archiveFail := fun _ => false, dateDir := "2026-10" }

/-- A fresh world: no lock, empty databases and collections, all
repository directories present, empty embedding cache. -/
def sampleWorld : World :=
  { lock := none, db := fun _ => Db.empty, vecs := fun _ => [],
    archived := fun _ => [], repoExists := fun _ => true, cache := ⟨[]⟩ }

/-! ## C4 — lock staleness and acquisition -/

/-- **C4.** Lock acquisition (`createLock`) succeeds exactly when no
lock file exists or the existing lock file is stale; staleness of an
existing lock file holds exactly when its modification time lies more
than fifteen minutes in the past (regardless of the recorded process
id) or the recorded process id does not name a live process; and a
live, non-stale lock file makes `createLock` fail with the
`already running` error, with no queuing or waiting (the failure is
immediate and final). -/
theorem createLock_succeeds_iff (alive : Nat → Bool) (now : Nat)
    (lock : Option LockFile) (selfPid : Nat) :
    ((createLock alive now lock selfPid).isOk =
      (lock.isNone || isLockStale alive now lock))
    ∧ (match lock with
       | none => isLockStale alive now none = false
       | some l => isLockStale alive now (some l) =
           (decide (15 * 60 * 1000 < now - l.mtime) || ! pidLive alive l.pid))
    ∧ ((isLockStale alive now lock = false ∧ lock.isSome = true) →
         createLock alive now lock selfPid =
           .error "Ingestion is already running. Lock file exists.") := by
  refine ⟨?_, ?_, ?_⟩
  · cases lock with
    | none => simp [createLock, isLockStale, Except.isOk, Except.toBool]
    | some l =>
        by_cases h : isLockStale alive now (some l) = true <;>
          simp_all [createLock, Except.isOk, Except.toBool]
  · cases lock with
    | none => simp [isLockStale]
    | some l =>
        by_cases h : 15 * 60 * 1000 < now - l.mtime <;>
          simp_all [isLockStale]
  · rintro ⟨h1, h2⟩
    simp [createLock, h1, h2]

/-- Witness for C4 at a concrete input: a fresh lock file whose
recorded process is alive is not stale, acquisition fails, and the
failure carries the `already running` error message. -/
theorem createLock_succeeds_iff_witness :
    isLockStale (fun p => p = 42) 1000 (some ⟨0, some 42⟩) = false ∧
    createLock (fun p => p = 42) 1000 (some ⟨0, some 42⟩) 7 =
      .error "Ingestion is already running. Lock file exists." :=
  ⟨by decide,
   (createLock_succeeds_iff (fun p => p = 42) 1000 (some ⟨0, some 42⟩) 7).2.2
     ⟨by decide, by decide⟩⟩

/-! ## C3 — ingestion against a live foreign lock -/

/-- **C3.** Invoking `ingestSource` while a live, non-stale lock file
created by another process exists returns `success = false` with the
`already running` error, performs no metadata-store, vector-store or
archive writes — and the unconditional cleanup in the `finally` block
nevertheless deletes the pre-existing lock file, even though this
invocation never acquired it. -/
theorem ingestSource_lockedOut (env : Env) (w : World) (source : String)
    (tags targetKeys : List String) (l : LockFile)
    (hsrc : source ≠ "") (hlk : w.lock = some l)
    (hstale : isLockStale env.alive env.now w.lock = false) :
    (ingestSource env w source tags targetKeys).2.success = false
    ∧ (ingestSource env w source tags targetKeys).2.error =
        some ("An unexpected error occurred during ingestion: " ++
          "Ingestion is already running. Lock file exists.")
    ∧ (ingestSource env w source tags targetKeys).1.db = w.db
    ∧ (ingestSource env w source tags targetKeys).1.vecs = w.vecs
    ∧ (ingestSource env w source tags targetKeys).1.archived = w.archived
    ∧ (ingestSource env w source tags targetKeys).1.lock = none := by
  have hcl : createLock env.alive env.now w.lock env.selfPid =
      .error "Ingestion is already running. Lock file exists." := by
    rw [hlk] at hstale ⊢
    simp [createLock, hstale]
  simp [ingestSource, hsrc, hcl]

/-- Witness for C3: a fresh foreign lock (live pid 42, age under
fifteen minutes) blocks a concrete ingestion; by the theorem the call
reports failure, writes nothing, and removes the foreign lock. -/
theorem ingestSource_lockedOut_witness :
    (ingestSource { sampleEnv with alive := fun p => p = 42, now := 5 }
        { sampleWorld with lock := some ⟨0, some 42⟩ }
        "file.txt" [] ["pablo"]).2.success = false
    ∧ (ingestSource { sampleEnv with alive := fun p => p = 42, now := 5 }
        { sampleWorld with lock := some ⟨0, some 42⟩ }
        "file.txt" [] ["pablo"]).1.lock = none :=
  have h := ingestSource_lockedOut
    { sampleEnv with alive := fun p => p = 42, now := 5 }
    { sampleWorld with lock := some ⟨0, some 42⟩ }
    "file.txt" [] ["pablo"] ⟨0, some 42⟩
    (by decide) rfl (by decide)
  ⟨h.1, h.2.2.2.2.2⟩

/-! ## C1 — all-or-nothing metadata transaction -/

/-- The chunk rows a successful transaction appends: one per embedded
chunk, under consecutive AUTOINCREMENT ids starting at `startId`. -/
def mkChunkRows (startId sid : Nat) : List EmbeddedChunk → List ChunkRow
  | [] => []
  | c :: rest =>
      ⟨startId, sid, c.chunk_index, c.content⟩ :: mkChunkRows (startId + 1) sid rest

/-- The ids collected by a successful chunk-insert loop: the consecutive
ids starting at `startId`, except a (theoretical) id 0, which the
truthiness check drops. -/
def mkChunkIds (startId : Nat) : Nat → List Nat
  | 0 => []
  | n + 1 =>
      if startId ≠ 0 then startId :: mkChunkIds (startId + 1) n
      else mkChunkIds (startId + 1) n

/-- A successful chunk-insert loop appends exactly one row per embedded
chunk (consecutive ids, the given owner, the chunk's index and text),
touches nothing else, and collects the truthy ids. -/
theorem insertChunksLoop_ok (failAt : Nat → Bool) (sid : Nat) :
    ∀ (ecs : List EmbeddedChunk) (db : Db) (k : Nat) (db2 : Db)
      (cids : List Nat),
      insertChunksLoop failAt db sid ecs k = .ok (db2, cids) →
      db2.sources = db.sources
      ∧ db2.chunks = db.chunks ++ mkChunkRows db.nextChunkId sid ecs
      ∧ db2.nextSourceId = db.nextSourceId
      ∧ db2.nextChunkId = db.nextChunkId + ecs.length
      ∧ cids = mkChunkIds db.nextChunkId ecs.length := by
  intro ecs
  induction ecs with
  | nil =>
      intro db k db2 cids h
      simp only [insertChunksLoop] at h
      cases h
      simp [mkChunkRows, mkChunkIds]
  | cons c rest ih =>
      intro db k db2 cids h
      simp only [insertChunksLoop] at h
      by_cases hf : failAt k
      · rw [if_pos hf] at h; cases h
      · rw [if_neg hf] at h
        by_cases hfk : db.sources.any (fun s => s.id = sid)
        · simp only [insertChunkRow] at h
          rw [if_pos hfk] at h
          dsimp only at h
          cases hrec : insertChunksLoop failAt
              { db with
                chunks := db.chunks ++
                  [⟨db.nextChunkId, sid, c.chunk_index, c.content⟩],
                nextChunkId := db.nextChunkId + 1 } sid rest (k + 1) with
          | error e => rw [hrec] at h; cases h
          | ok p =>
              rw [hrec] at h
              obtain ⟨p1, p2⟩ := p
              dsimp only at h
              cases h
              obtain ⟨i1, i2, i3, i4, i5⟩ := ih _ (k + 1) _ _ hrec
              constructor
              · simpa using i1
              constructor
              · rw [i2]; simp [mkChunkRows, List.append_assoc]
              constructor
              · simpa using i3
              constructor
              · simp only [List.length_cons]
                simp at i4
                omega
              · rw [i5]; simp [mkChunkIds]
        · simp only [insertChunkRow] at h
          rw [if_neg hfk] at h
          cases h

/-- **C1.** The per-target metadata write (the
`BEGIN TRANSACTION … COMMIT` block of `ingestSource`, modelled by
`metadataTxn`) is all-or-nothing: whenever the source insert or any
chunk insert fails, the rollback leaves the database exactly as it was
(no Source row and no Chunk row of the attempt persists); on success
the source row and one chunk row per embedded chunk are all written. -/
theorem metadataTxn_atomic (failAt : Nat → Bool) (db : Db)
    (ext : ExtractedContent) (finalTags : List String)
    (ecs : List EmbeddedChunk) :
    match metadataTxn failAt db ext finalTags ecs with
    | (db1, none) => db1 = db
    | (db1, some (sid, cids)) =>
        sid = db.nextSourceId
        ∧ db1.sources = db.sources ++ [mkSourceRow sid ext finalTags]
        ∧ db1.chunks = db.chunks ++ mkChunkRows db.nextChunkId sid ecs
        ∧ cids = mkChunkIds db.nextChunkId ecs.length := by
  unfold metadataTxn
  by_cases hf : failAt 0
  · rw [if_pos hf]
  · rw [if_neg hf]
    by_cases hu : db.sources.any (fun s =>
        s.url = ext.source || s.normalized_url = ext.normalizedSource ||
        s.content_hash = ext.contentHash)
    · simp only [insertSourceRow]; rw [if_pos hu]
    · simp only [insertSourceRow]; rw [if_neg hu]
      dsimp only
      by_cases hz : db.nextSourceId = 0
      · rw [if_pos hz]
      · rw [if_neg hz]
        cases hrec : insertChunksLoop failAt
            { db with
              sources := db.sources ++ [mkSourceRow db.nextSourceId ext finalTags],
              nextSourceId := db.nextSourceId + 1 } db.nextSourceId ecs 1 with
        | error e => rfl
        | ok p =>
            obtain ⟨p1, p2⟩ := p
            obtain ⟨i1, i2, i3, i4, i5⟩ :=
              insertChunksLoop_ok failAt db.nextSourceId _ _ 1 _ _ hrec
            dsimp only
            exact ⟨rfl, by simpa using i1, by simpa using i2, by simpa using i5⟩

/-! ## C10 — empty search results are a successful empty answer -/

/-- **C10.** When the vector search for a query returns no hits,
`answerQuery` returns a successful result (`success = true`) carrying
the no-relevant-context answer and an empty source list, not an
error. -/
theorem answerQuery_empty_success (env : QueryEnv) (query : String)
    (tags : List String) (target : String) (embs : List (List ℚ))
    (hq : query ≠ "") (hemb : env.getEmb = .ok embs)
    (hempty : ((env.search (target ++ "_kb") embs.head?
        (if tags = [] then none else some tags)).metadatas.head?).getD []
        = []) :
    answerQuery env query tags target =
      { success := true,
        answer := some "No relevant context found in the knowledge base.",
        sources := some [], error := none } := by
  simp [answerQuery, hq, hemb, hempty]

/-- Witness for C10: a concrete query environment whose search returns
an empty hit list yields the successful no-context answer. -/
theorem answerQuery_empty_success_witness :
    answerQuery
      { getEmb := .ok [[(1 : ℚ)]],
        search := fun _ _ _ => { metadatas := [[]], distances := [[]] },
        generate := .ok "unused" } "q" [] "pablo" =
      { success := true,
        answer := some "No relevant context found in the knowledge base.",
        sources := some [], error := none } :=
  answerQuery_empty_success
    { getEmb := .ok [[(1 : ℚ)]],
      search := fun _ _ _ => { metadatas := [[]], distances := [[]] },
      generate := .ok "unused" } "q" [] "pablo" [[(1 : ℚ)]]
    (by decide) rfl (by decide)

/-! ## Pipeline lemmas shared by the ingestion claims -/

/-- Database projection of a point update. -/
theorem setDb_db (w : World) (tk t : TargetKey) (d : Db) :
    (w.setDb tk d).db t = if t = tk then d else w.db t := rfl

/-- A point update of the databases leaves the vector collections,
archives, repositories, cache and lock unchanged. -/
theorem setDb_rest (w : World) (tk : TargetKey) (d : Db) :
    (w.setDb tk d).vecs = w.vecs ∧ (w.setDb tk d).archived = w.archived
    ∧ (w.setDb tk d).repoExists = w.repoExists
    ∧ (w.setDb tk d).cache = w.cache ∧ (w.setDb tk d).lock = w.lock :=
  ⟨rfl, rfl, rfl, rfl, rfl⟩

/-- Vector projection of a point update. -/
theorem setVecs_vecs (w : World) (tk t : TargetKey) (v : List VectorRecord) :
    (w.setVecs tk v).vecs t = if t = tk then v else w.vecs t := rfl

/-- A point update of the vector collections leaves everything else
unchanged. -/
theorem setVecs_rest (w : World) (tk : TargetKey) (v : List VectorRecord) :
    (w.setVecs tk v).db = w.db ∧ (w.setVecs tk v).archived = w.archived
    ∧ (w.setVecs tk v).repoExists = w.repoExists
    ∧ (w.setVecs tk v).cache = w.cache ∧ (w.setVecs tk v).lock = w.lock :=
  ⟨rfl, rfl, rfl, rfl, rfl⟩

/-- Archive projection of a point update. -/
theorem setArchived_archived (w : World) (tk t : TargetKey) (a : List String) :
    (w.setArchived tk a).archived t = if t = tk then a else w.archived t := rfl

/-- A point update of the archives leaves everything else unchanged. -/
theorem setArchived_rest (w : World) (tk : TargetKey) (a : List String) :
    (w.setArchived tk a).db = w.db ∧ (w.setArchived tk a).vecs = w.vecs
    ∧ (w.setArchived tk a).repoExists = w.repoExists
    ∧ (w.setArchived tk a).cache = w.cache
    ∧ (w.setArchived tk a).lock = w.lock :=
  ⟨rfl, rfl, rfl, rfl, rfl⟩

/-- The final tag set of an `ingestSource` run: manual tags unioned with
the classifier tags (computed against the reference target's vocabulary),
first occurrence kept. -/
def finalTagsOf (env : Env) (w : World) (tags : List String) : List String :=
  (tags ++
    (match env.classify (getAllUniqueTags (w.db TargetKey.reels)) with
     | .ok c => c.tags
     | .error _ => [])).eraseDups

/-- Flattening the batches recovers the original list. -/
theorem batchesGo_flatten (n : Nat) :
    ∀ (fuel : Nat) (l : List α), (batchesGo n fuel l).flatten = l := by
  intro fuel
  induction fuel with
  | zero => intro l; cases l <;> simp [batchesGo]
  | succ fuel ih =>
      intro l
      cases l with
      | nil => simp [batchesGo]
      | cons a as =>
          simp only [batchesGo, List.flatten_cons, ih]
          exact List.take_append_drop n (a :: as)

/-- Flattening `batchesOf` recovers the original list. -/
theorem batchesOf_flatten (n : Nat) (l : List α) :
    (batchesOf n l).flatten = l :=
  batchesGo_flatten n l.length l

/-- Appending a list of batches one by one appends their flattening. -/
theorem foldl_append_flatten (bs : List (List α)) :
    ∀ st : List α, bs.foldl (fun s b => s ++ b) st = st ++ bs.flatten := by
  induction bs with
  | nil => intro st; simp
  | cons b bs ih => intro st; simp [ih]

/-- A successful (well-sized, accepted) vector-store add appends exactly
one record per chunk. -/
theorem addChunksToVectorStore_ok (store : List VectorRecord)
    (chunks : List ChunkWithMeta) (embeddings : List (List ℚ))
    (hlen : chunks.length = embeddings.length) :
    addChunksToVectorStore true store chunks embeddings =
      .ok (store ++ mkRecords chunks embeddings) := by
  simp only [addChunksToVectorStore, hlen]
  rw [if_neg (by simp), if_neg (by simp)]
  rw [foldl_append_flatten, batchesOf_flatten]

/-- `metadataTxn` never reports a falsy source id. -/
theorem metadataTxn_sid_ne_zero (failAt : Nat → Bool) (db : Db)
    (ext : ExtractedContent) (finalTags : List String)
    (ecs : List EmbeddedChunk) (sid : Nat) (cids : List Nat)
    (h : (metadataTxn failAt db ext finalTags ecs).2 = some (sid, cids)) :
    sid ≠ 0 := by
  unfold metadataTxn at h
  by_cases hf : failAt 0
  · rw [if_pos hf] at h; cases h
  · rw [if_neg hf] at h
    by_cases hu : db.sources.any (fun s =>
        s.url = ext.source || s.normalized_url = ext.normalizedSource ||
        s.content_hash = ext.contentHash)
    · simp only [insertSourceRow] at h; rw [if_pos hu] at h; cases h
    · simp only [insertSourceRow] at h; rw [if_neg hu] at h
      dsimp only at h
      by_cases hz : db.nextSourceId = 0
      · rw [if_pos hz] at h; cases h
      · rw [if_neg hz] at h
        cases hrec : insertChunksLoop failAt
            { db with
              sources := db.sources ++ [mkSourceRow db.nextSourceId ext finalTags],
              nextSourceId := db.nextSourceId + 1 } db.nextSourceId ecs 1 with
        | error e => rw [hrec] at h; cases h
        | ok p =>
            obtain ⟨p1, p2⟩ := p
            rw [hrec] at h
            dsimp only at h
            cases h
            exact hz

/-- The `finally` block: the lock file is removed, all other state is
kept. -/
def World.clearLock (w : World) : World := { w with lock := none }

/-- Projections of `clearLock`. -/
theorem clearLock_db (w : World) : w.clearLock.db = w.db := rfl

/-- Vector collections survive `clearLock`. -/
theorem clearLock_vecs (w : World) : w.clearLock.vecs = w.vecs := rfl

/-- Archives survive `clearLock`. -/
theorem clearLock_archived (w : World) : w.clearLock.archived = w.archived :=
  rfl

/-- Repository flags survive `clearLock`. -/
theorem clearLock_repoExists (w : World) :
    w.clearLock.repoExists = w.repoExists := rfl

/-- The cache survives `clearLock`. -/
theorem clearLock_cache (w : World) : w.clearLock.cache = w.cache := rfl

/-- The lock is gone after `clearLock`. -/
theorem clearLock_lock (w : World) : w.clearLock.lock = none := rfl

/-- On the main path (non-empty source, no lock, successful extraction,
at least one embedded chunk) `ingestSource` reduces to the per-target
write loop, with the lock taken during the loop and removed at the
end. -/
theorem ingestSource_mainPath (env : Env) (w : World) (source : String)
    (tags targetKeys : List String) (ext : ExtractedContent)
    (hsrc : source ≠ "") (hlock : w.lock = none)
    (hext : env.extract = .ok ext)
    (hne : (embedChunks env.emb w.cache (chunkContent ext.content)).2 ≠ []) :
    ingestSource env w source tags targetKeys =
      (World.clearLock (processTargets env ext (finalTagsOf env w tags)
            (embedChunks env.emb w.cache (chunkContent ext.content)).2
            { w with
                lock := some ⟨env.now, some env.selfPid⟩,
                cache := (embedChunks env.emb w.cache
                  (chunkContent ext.content)).1 }
            targetKeys).1,
       { success := ¬ (processTargets env ext (finalTagsOf env w tags)
            (embedChunks env.emb w.cache (chunkContent ext.content)).2
            { w with
                lock := some ⟨env.now, some env.selfPid⟩,
                cache := (embedChunks env.emb w.cache
                  (chunkContent ext.content)).1 }
            targetKeys).2.isEmpty,
         source := source,
         targets := some (processTargets env ext (finalTagsOf env w tags)
            (embedChunks env.emb w.cache (chunkContent ext.content)).2
            { w with
                lock := some ⟨env.now, some env.selfPid⟩,
                cache := (embedChunks env.emb w.cache
                  (chunkContent ext.content)).1 }
            targetKeys).2,
         tags := some (finalTagsOf env w tags),
         chunks := some (embedChunks env.emb w.cache
           (chunkContent ext.content)).2.length }) := by
  have hcl : createLock env.alive env.now w.lock env.selfPid =
      .ok ⟨env.now, some env.selfPid⟩ := by
    simp [createLock, hlock]
  have hlen : (embedChunks env.emb w.cache (chunkContent ext.content)).2.length
      ≠ 0 := by
    simpa [List.length_eq_zero] using hne
  simp only [ingestSource, if_neg hsrc, hcl, hext, finalTagsOf]
  simp [hlen, World.clearLock]

/-- The target loop, one step at a time. -/
theorem processTargets_cons (env : Env) (ext : ExtractedContent)
    (ft : List String) (ecs : List EmbeddedChunk) (w : World)
    (k : String) (keys : List String) (tk : TargetKey)
    (hk : TARGETS k = some tk) :
    processTargets env ext ft ecs w (k :: keys) =
      ((processTargets env ext ft ecs
          (processTarget env ext ft ecs w tk).1 keys).1,
       (if (processTarget env ext ft ecs w tk).2 then [k] else []) ++
         (processTargets env ext ft ecs
           (processTarget env ext ft ecs w tk).1 keys).2) := by
  simp [processTargets, hk]

/-- A target whose database already holds the normalized locator is
skipped and counted successful, with the world unchanged. -/
theorem processTarget_dedupSkip (env : Env) (ext : ExtractedContent)
    (ft : List String) (ecs : List EmbeddedChunk) (w : World)
    (tk : TargetKey) (hrepo : w.repoExists tk = true)
    (hdup : (w.db tk).sources.any
      (fun s => s.normalized_url = ext.normalizedSource) = true) :
    processTarget env ext ft ecs w tk = (w, true) := by
  simp [processTarget, hrepo, hdup]

/-- A fresh target write on the fully successful path: metadata
transaction committed, vectors accepted, archive written. -/
theorem processTarget_fullSuccess (env : Env) (ext : ExtractedContent)
    (ft : List String) (ecs : List EmbeddedChunk) (w : World)
    (tk : TargetKey) (db1 : Db) (sid : Nat) (cids : List Nat)
    (hrepo : w.repoExists tk = true)
    (hdup : (w.db tk).sources.any
      (fun s => s.normalized_url = ext.normalizedSource) = false)
    (htxn : metadataTxn (env.stmtFail tk) (w.db tk) ext ft ecs =
      (db1, some (sid, cids)))
    (hadd : env.addOk tk = true)
    (harch : env.archiveFail tk = false) :
    processTarget env ext ft ecs w tk =
      (((w.setDb tk db1).setVecs tk
          (w.vecs tk ++
            mkRecords (buildChunksWithIds ecs cids sid ext ft)
              (ecs.map EmbeddedChunk.embedding))).setArchived tk
        (w.archived tk ++ [archivePath env ext sid]), true) := by
  have hsid : sid ≠ 0 := metadataTxn_sid_ne_zero (env.stmtFail tk)
    (w.db tk) ext ft ecs sid cids (by rw [htxn])
  have hlen : (buildChunksWithIds ecs cids sid ext ft).length =
      (ecs.map EmbeddedChunk.embedding).length := by
    simp [buildChunksWithIds]
  have hvs := addChunksToVectorStore_ok ((w.setDb tk db1).vecs tk)
    (buildChunksWithIds ecs cids sid ext ft)
    (ecs.map EmbeddedChunk.embedding) hlen
  simp only [processTarget, hrepo, hdup, htxn]
  rw [if_neg (by simp), if_neg (by simp [hdup])]
  rw [hadd, hvs]
  dsimp only
  rw [if_pos hsid, if_neg (by simp [harch])]
  rfl

/-- A committed metadata transaction followed by a rejected vector add:
the committed rows stay, the target is reported unsuccessful. -/
theorem processTarget_vecFail (env : Env) (ext : ExtractedContent)
    (ft : List String) (ecs : List EmbeddedChunk) (w : World)
    (tk : TargetKey) (db1 : Db) (sid : Nat) (cids : List Nat)
    (hrepo : w.repoExists tk = true)
    (hdup : (w.db tk).sources.any
      (fun s => s.normalized_url = ext.normalizedSource) = false)
    (htxn : metadataTxn (env.stmtFail tk) (w.db tk) ext ft ecs =
      (db1, some (sid, cids)))
    (hadd : env.addOk tk = false) :
    processTarget env ext ft ecs w tk = (w.setDb tk db1, false) := by
  simp only [processTarget, hrepo, hdup, htxn]
  rw [if_neg (by simp), if_neg (by simp [hdup])]
  simp [addChunksToVectorStore, hadd,
    buildChunksWithIds]

/-- A committed metadata transaction with accepted vectors but a failing
archive write: metadata and vectors stay, the target is reported
unsuccessful. -/
theorem processTarget_archiveFail (env : Env) (ext : ExtractedContent)
    (ft : List String) (ecs : List EmbeddedChunk) (w : World)
    (tk : TargetKey) (db1 : Db) (sid : Nat) (cids : List Nat)
    (hrepo : w.repoExists tk = true)
    (hdup : (w.db tk).sources.any
      (fun s => s.normalized_url = ext.normalizedSource) = false)
    (htxn : metadataTxn (env.stmtFail tk) (w.db tk) ext ft ecs =
      (db1, some (sid, cids)))
    (hadd : env.addOk tk = true)
    (harch : env.archiveFail tk = true) :
    processTarget env ext ft ecs w tk =
      ((w.setDb tk db1).setVecs tk
        (w.vecs tk ++
          mkRecords (buildChunksWithIds ecs cids sid ext ft)
            (ecs.map EmbeddedChunk.embedding)), false) := by
  have hsid : sid ≠ 0 := metadataTxn_sid_ne_zero (env.stmtFail tk)
    (w.db tk) ext ft ecs sid cids (by rw [htxn])
  have hlen : (buildChunksWithIds ecs cids sid ext ft).length =
      (ecs.map EmbeddedChunk.embedding).length := by
    simp [buildChunksWithIds]
  have hvs := addChunksToVectorStore_ok ((w.setDb tk db1).vecs tk)
    (buildChunksWithIds ecs cids sid ext ft)
    (ecs.map EmbeddedChunk.embedding) hlen
  simp only [processTarget, hrepo, hdup, htxn]
  rw [if_neg (by simp), if_neg (by simp [hdup])]
  rw [hadd, hvs]
  dsimp only
  rw [if_pos hsid, if_pos harch]
  rfl

/-- A missing repository directory skips the target. -/
theorem processTarget_noRepo (env : Env) (ext : ExtractedContent)
    (ft : List String) (ecs : List EmbeddedChunk) (w : World)
    (tk : TargetKey) (hrepo : w.repoExists tk = false) :
    processTarget env ext ft ecs w tk = (w, false) := by
  simp [processTarget, hrepo]

/-- A failed (rolled-back) metadata transaction skips the target. -/
theorem processTarget_metaFail (env : Env) (ext : ExtractedContent)
    (ft : List String) (ecs : List EmbeddedChunk) (w : World)
    (tk : TargetKey) (db1 : Db)
    (hrepo : w.repoExists tk = true)
    (hdup : (w.db tk).sources.any
      (fun s => s.normalized_url = ext.normalizedSource) = false)
    (htxn : metadataTxn (env.stmtFail tk) (w.db tk) ext ft ecs =
      (db1, none)) :
    processTarget env ext ft ecs w tk = (w.setDb tk db1, false) := by
  simp only [processTarget, hrepo, hdup, htxn]
  rw [if_neg (by simp), if_neg (by simp [hdup])]

/-! ## C2 — vector record key format -/

/-- When AUTOINCREMENT has ever run (counter at least 1), the collected
chunk ids are exactly the consecutive ids. -/
theorem mkChunkIds_pos :
    ∀ (n startId : Nat), startId ≠ 0 →
      mkChunkIds startId n = (List.range n).map (startId + ·) := by
  intro n
  induction n with
  | zero => intro startId h; simp [mkChunkIds]
  | succ n ih =>
      intro startId h
      rw [mkChunkIds, if_pos h, List.range_succ_eq_map, List.map_cons]
      rw [ih (startId + 1) (by omega), List.map_map]
      have hfun : ((fun x => startId + x) ∘ Nat.succ) =
          (fun x => startId + 1 + x) := by
        funext x
        simp [Function.comp]
        omega
      rw [hfun]
      simp

/-- The record ids of a vector-store add are the `recordKey`s of its
chunks. -/
theorem mkRecords_keys :
    ∀ (chunks : List ChunkWithMeta) (embeddings : List (List ℚ)),
      chunks.length = embeddings.length →
      (mkRecords chunks embeddings).map (fun r => r.key) =
        chunks.map recordKey := by
  intro chunks
  induction chunks with
  | nil => intro embeddings h; simp [mkRecords]
  | cons c cs ih =>
      intro embeddings h
      cases embeddings with
      | nil => simp at h
      | cons e es =>
          simp only [mkRecords, List.zipWith_cons_cons, List.map_cons]
          have := ih es (by simpa using h)
          simp only [mkRecords] at this
          rw [this]

/-- **C2 counterexample.** A concrete, fully successful ingestion into
the target `pablo` writes exactly one vector record, whose key is
`chunk_1_1` — the literal prefix `chunk`, not the target name — so the
key does not have the form `<target>_<sourceId>_<chunkId>` (its first
six characters are not `pablo_`). -/
theorem ingest_vector_key_not_target_prefixed :
    (ingestSource sampleEnv sampleWorld "file.txt" [] ["pablo"]).2.success
      = true
    ∧ ((ingestSource sampleEnv sampleWorld "file.txt" []
        ["pablo"]).1.vecs TargetKey.pablo).map (fun r => r.key) =
        ["chunk_1_1"]
    ∧ "chunk_1_1".data.take 6 ≠ "pablo_".data
    ∧ "chunk_1_1" ≠ "pablo_1_1" := by
  refine ⟨by decide, by decide, by decide, by decide⟩

/-- **C2 (amended).** Every vector record written by a successful
per-target ingestion has key `"chunk_<sourceId>_<chunkId>"` — the fixed
literal prefix `chunk` followed by the inserted source row id and the
inserted chunk row id; the target name does not appear in the key. -/
theorem ingest_vector_keys (env : Env) (w : World) (source : String)
    (tags : List String) (k : String) (tk : TargetKey)
    (ext : ExtractedContent) (db1 : Db) (sid : Nat) (cids : List Nat)
    (hk : TARGETS k = some tk)
    (hsrc : source ≠ "") (hlock : w.lock = none)
    (hext : env.extract = .ok ext)
    (hne : (embedChunks env.emb w.cache (chunkContent ext.content)).2 ≠ [])
    (hrepo : w.repoExists tk = true)
    (hdup : (w.db tk).sources.any
      (fun s => s.normalized_url = ext.normalizedSource) = false)
    (htxn : metadataTxn (env.stmtFail tk) (w.db tk) ext
      (finalTagsOf env w tags)
      (embedChunks env.emb w.cache (chunkContent ext.content)).2 =
      (db1, some (sid, cids)))
    (hnc : (w.db tk).nextChunkId ≠ 0)
    (hadd : env.addOk tk = true)
    (harch : env.archiveFail tk = false) :
    ((ingestSource env w source tags [k]).1.vecs tk).map (fun r => r.key) =
      (w.vecs tk).map (fun r => r.key) ++
        cids.map (fun cid =>
          "chunk_" ++ toString sid ++ "_" ++ toString cid) := by
  set ecs := (embedChunks env.emb w.cache (chunkContent ext.content)).2
    with hecsDef
  have hcids : cids = mkChunkIds (w.db tk).nextChunkId ecs.length := by
    have hA := metadataTxn_atomic (env.stmtFail tk) (w.db tk) ext
      (finalTagsOf env w tags) ecs
    rw [htxn] at hA
    exact hA.2.2.2
  rw [ingestSource_mainPath env w source tags [k] ext hsrc hlock hext hne]
  dsimp only
  rw [processTargets_cons env ext (finalTagsOf env w tags) ecs _ k [] tk hk]
  dsimp only
  rw [processTarget_fullSuccess env ext (finalTagsOf env w tags) ecs
    { w with
        lock := some ⟨env.now, some env.selfPid⟩,
        cache := (embedChunks env.emb w.cache (chunkContent ext.content)).1 }
    tk db1 sid cids hrepo hdup htxn hadd harch]
  dsimp only [processTargets]
  rw [clearLock_vecs]
  dsimp only [World.setArchived, World.setVecs, World.setDb]
  rw [if_pos rfl]
  rw [List.map_append]
  congr 1
  rw [mkRecords_keys _ _ (by simp [buildChunksWithIds])]
  rw [hcids, mkChunkIds_pos ecs.length (w.db tk).nextChunkId hnc]
  simp only [buildChunksWithIds, List.map_map]
  rw [show ((fun r => recordKey r) ∘ fun p : Nat × EmbeddedChunk =>
    ({ id := ((List.range ecs.length).map ((w.db tk).nextChunkId + ·)).getD p.1 0,
       source_id := sid, content := p.2.content, url := ext.source,
       title := ext.title, tags := finalTagsOf env w tags } : ChunkWithMeta)) =
    ((fun i => "chunk_" ++ toString sid ++ "_" ++
      toString (((List.range ecs.length).map
        ((w.db tk).nextChunkId + ·)).getD i 0)) ∘ Prod.fst) from rfl]
  rw [← List.map_map, List.enum_map_fst]
  apply List.map_congr_left
  intro i hi
  have hilt : i < ecs.length := List.mem_range.mp hi
  simp [Function.comp, List.getD, List.getElem?_map, List.getElem?_range, hilt]

/-- Witness for the amended C2 at the shared fixtures: one source, one
chunk, and the written vector key is `chunk_1_1`. -/
theorem ingest_vector_keys_witness :
    ((ingestSource sampleEnv sampleWorld "file.txt" []
        ["pablo"]).1.vecs TargetKey.pablo).map (fun r => r.key) =
      (sampleWorld.vecs TargetKey.pablo).map (fun r => r.key) ++
        [1].map (fun cid =>
          "chunk_" ++ toString 1 ++ "_" ++ toString cid) :=
  ingest_vector_keys sampleEnv sampleWorld "file.txt" [] "pablo"
    TargetKey.pablo sampleExt
    (metadataTxn (sampleEnv.stmtFail TargetKey.pablo)
      (sampleWorld.db TargetKey.pablo) sampleExt
      (finalTagsOf sampleEnv sampleWorld [])
      (embedChunks sampleEnv.emb sampleWorld.cache
        (chunkContent sampleExt.content)).2).1
    1 [1] rfl (by decide) rfl rfl (by decide) rfl (by decide) (by decide)
    (by decide) rfl rfl

/-! ## C5 — ingesting the same normalized locator twice -/

/-- **C5.** Ingesting the same normalized locator twice into the same
target yields exactly one stored Source row: when a first call succeeds
for target `k` starting from a store without that locator, the second
call (same normalized locator) reports the target as already successful
(`targets = [k]`, overall success), stores no second Source row, and
writes no new chunk rows and no new vector records for it. -/
theorem ingest_dedup_second_run (env1 env2 : Env) (w0 : World)
    (source : String) (tags1 tags2 : List String) (k : String)
    (tk : TargetKey) (ext1 ext2 : ExtractedContent)
    (hk : TARGETS k = some tk) (hsrc : source ≠ "")
    (hlock : w0.lock = none)
    (hext1 : env1.extract = .ok ext1) (hext2 : env2.extract = .ok ext2)
    (hnorm : ext2.normalizedSource = ext1.normalizedSource)
    (hcount0 : (w0.db tk).sources.countP
      (fun s => s.normalized_url = ext1.normalizedSource) = 0)
    (hne1 : (embedChunks env1.emb w0.cache (chunkContent ext1.content)).2
      ≠ [])
    (hsucc1 : k ∈ ((ingestSource env1 w0 source tags1 [k]).2.targets.getD []))
    (hne2 : (embedChunks env2.emb
      (ingestSource env1 w0 source tags1 [k]).1.cache
      (chunkContent ext2.content)).2 ≠ []) :
    (((ingestSource env2 (ingestSource env1 w0 source tags1 [k]).1
        source tags2 [k]).1.db tk).sources.countP
      (fun s => s.normalized_url = ext1.normalizedSource) = 1)
    ∧ (ingestSource env2 (ingestSource env1 w0 source tags1 [k]).1
        source tags2 [k]).2.targets = some [k]
    ∧ (ingestSource env2 (ingestSource env1 w0 source tags1 [k]).1
        source tags2 [k]).2.success = true
    ∧ ((ingestSource env2 (ingestSource env1 w0 source tags1 [k]).1
        source tags2 [k]).1.db tk).chunks =
      ((ingestSource env1 w0 source tags1 [k]).1.db tk).chunks
    ∧ (ingestSource env2 (ingestSource env1 w0 source tags1 [k]).1
        source tags2 [k]).1.vecs tk =
      (ingestSource env1 w0 source tags1 [k]).1.vecs tk := by
  have hdup1 : (w0.db tk).sources.any
      (fun s => s.normalized_url = ext1.normalizedSource) = false := by
    rw [List.any_eq_false]
    exact List.countP_eq_zero.mp hcount0
  rw [ingestSource_mainPath env1 w0 source tags1 [k] ext1 hsrc hlock
    hext1 hne1] at hsucc1 hne2 ⊢
  set ft1 := finalTagsOf env1 w0 tags1 with hft1
  set w1 : World :=
    { w0 with
        lock := some ⟨env1.now, some env1.selfPid⟩,
        cache := (embedChunks env1.emb w0.cache
          (chunkContent ext1.content)).1 } with hw1
  set ecs1 := (embedChunks env1.emb w0.cache (chunkContent ext1.content)).2
    with hecs1
  rw [processTargets_cons env1 ext1 ft1 ecs1 w1 k [] tk hk] at hsucc1 hne2 ⊢
  dsimp only [processTargets] at hsucc1 hne2 ⊢
  have hPT2 : (processTarget env1 ext1 ft1 ecs1 w1 tk).2 = true := by
    by_cases hb : (processTarget env1 ext1 ft1 ecs1 w1 tk).2 = true
    · exact hb
    · rw [Bool.not_eq_true] at hb
      rw [hb] at hsucc1
      simp at hsucc1
  by_cases hrepo : w0.repoExists tk = true
  case neg =>
    have hrepoF : w0.repoExists tk = false := by simpa using hrepo
    rw [processTarget_noRepo env1 ext1 ft1 ecs1 w1 tk hrepoF] at hPT2
    simp at hPT2
  case pos =>
    cases htxn1 : metadataTxn (env1.stmtFail tk) (w0.db tk) ext1 ft1 ecs1 with
    | mk db1 o =>
        cases o with
        | none =>
            rw [processTarget_metaFail env1 ext1 ft1 ecs1 w1 tk db1 hrepo
              hdup1 htxn1] at hPT2
            simp at hPT2
        | some sc =>
            obtain ⟨sid, cids⟩ := sc
            by_cases hadd : env1.addOk tk = true
            case neg =>
              have haddF : env1.addOk tk = false := by simpa using hadd
              rw [processTarget_vecFail env1 ext1 ft1 ecs1 w1 tk db1 sid cids
                hrepo hdup1 htxn1 haddF] at hPT2
              simp at hPT2
            case pos =>
              by_cases harch : env1.archiveFail tk = true
              case pos =>
                rw [processTarget_archiveFail env1 ext1 ft1 ecs1 w1 tk db1
                  sid cids hrepo hdup1 htxn1 hadd harch] at hPT2
                simp at hPT2
              case neg =>
                have harchF : env1.archiveFail tk = false := by simpa using harch
                have hA := metadataTxn_atomic (env1.stmtFail tk) (w0.db tk)
                  ext1 ft1 ecs1
                rw [htxn1] at hA
                rw [processTarget_fullSuccess env1 ext1 ft1 ecs1 w1 tk db1
                  sid cids hrepo hdup1 htxn1 hadd harchF] at hne2 ⊢
                dsimp only at hne2 ⊢
                set WF : World := ((w1.setDb tk db1).setVecs tk
                    (w1.vecs tk ++
                      mkRecords (buildChunksWithIds ecs1 cids sid ext1 ft1)
                        (ecs1.map EmbeddedChunk.embedding))).setArchived tk
                  (w1.archived tk ++ [archivePath env1 ext1 sid]) with hWF
                have hWFdb : WF.db tk = db1 := by
                  rw [hWF]
                  simp [World.setArchived, World.setVecs, World.setDb]
                have hdup2 : (WF.clearLock.db tk).sources.any
                    (fun s => s.normalized_url = ext2.normalizedSource)
                    = true := by
                  rw [clearLock_db, hWFdb, hA.2.1]
                  simp [List.any_append, mkSourceRow, hnorm]
                rw [ingestSource_mainPath env2 WF.clearLock source tags2 [k]
                  ext2 hsrc (clearLock_lock WF) hext2 hne2]
                rw [processTargets_cons env2 ext2
                  (finalTagsOf env2 WF.clearLock tags2)
                  (embedChunks env2.emb WF.clearLock.cache
                    (chunkContent ext2.content)).2
                  { WF.clearLock with
                      lock := some ⟨env2.now, some env2.selfPid⟩,
                      cache := (embedChunks env2.emb WF.clearLock.cache
                        (chunkContent ext2.content)).1 }
                  k [] tk hk]
                rw [processTarget_dedupSkip env2 ext2
                  (finalTagsOf env2 WF.clearLock tags2)
                  (embedChunks env2.emb WF.clearLock.cache
                    (chunkContent ext2.content)).2
                  { WF.clearLock with
                      lock := some ⟨env2.now, some env2.selfPid⟩,
                      cache := (embedChunks env2.emb WF.clearLock.cache
                        (chunkContent ext2.content)).1 }
                  tk hrepo hdup2]
                dsimp only [processTargets]
                refine ⟨?_, by simp, by simp, rfl, rfl⟩
                rw [show (World.clearLock
                    { WF.clearLock with
                        lock := some ⟨env2.now, some env2.selfPid⟩,
                        cache := (embedChunks env2.emb WF.clearLock.cache
                          (chunkContent ext2.content)).1 }).db tk =
                    WF.db tk from rfl]
                rw [hWFdb, hA.2.1]
                simp [List.countP_append, hcount0, mkSourceRow]

/-- Witness for C5 at the shared fixtures: ingesting `file.txt` into
`pablo` twice leaves exactly one Source row with its normalized locator,
and the second call reports the target as successful. -/
theorem ingest_dedup_second_run_witness :
    (((ingestSource sampleEnv
        (ingestSource sampleEnv sampleWorld "file.txt" [] ["pablo"]).1
        "file.txt" [] ["pablo"]).1.db TargetKey.pablo).sources.countP
      (fun s => s.normalized_url = sampleExt.normalizedSource) = 1)
    ∧ (ingestSource sampleEnv
        (ingestSource sampleEnv sampleWorld "file.txt" [] ["pablo"]).1
        "file.txt" [] ["pablo"]).2.targets = some ["pablo"]
    ∧ (ingestSource sampleEnv
        (ingestSource sampleEnv sampleWorld "file.txt" [] ["pablo"]).1
        "file.txt" [] ["pablo"]).2.success = true :=
  have h := ingest_dedup_second_run sampleEnv sampleEnv sampleWorld
    "file.txt" [] [] "pablo" TargetKey.pablo sampleExt sampleExt
    rfl (by decide) rfl rfl rfl rfl (by decide) (by decide) (by decide)
    (by decide)
  ⟨h.1, h.2.1, h.2.2.1⟩

/-! ## C7 — a failed vector write or archival does not unwind the
committed metadata and does not stop the remaining targets -/

/-- **C7.** When a target's metadata transaction has committed and the
subsequent vector-index write (or, with accepted vectors, the archival
step) for that target fails, the committed Source and Chunk rows of that
target survive unchanged (the database of that target is exactly the
committed one, holding the new Source row), and ingestion still
proceeds to the remaining requested target, which succeeds; the overall
run reports success. -/
theorem ingest_partial_failure_continues (env : Env) (w : World)
    (source : String) (tags : List String) (kA kB : String)
    (tA tB : TargetKey) (ext : ExtractedContent)
    (db1A db1B : Db) (sidA sidB : Nat) (cidsA cidsB : List Nat)
    (hkA : TARGETS kA = some tA) (hkB : TARGETS kB = some tB)
    (hAB : tA ≠ tB)
    (hsrc : source ≠ "") (hlock : w.lock = none)
    (hext : env.extract = .ok ext)
    (hne : (embedChunks env.emb w.cache (chunkContent ext.content)).2 ≠ [])
    (hrepoA : w.repoExists tA = true)
    (hdupA : (w.db tA).sources.any
      (fun s => s.normalized_url = ext.normalizedSource) = false)
    (htxnA : metadataTxn (env.stmtFail tA) (w.db tA) ext
      (finalTagsOf env w tags)
      (embedChunks env.emb w.cache (chunkContent ext.content)).2 =
      (db1A, some (sidA, cidsA)))
    (hfailA : env.addOk tA = false ∨
      (env.addOk tA = true ∧ env.archiveFail tA = true))
    (hrepoB : w.repoExists tB = true)
    (hdupB : (w.db tB).sources.any
      (fun s => s.normalized_url = ext.normalizedSource) = false)
    (htxnB : metadataTxn (env.stmtFail tB) (w.db tB) ext
      (finalTagsOf env w tags)
      (embedChunks env.emb w.cache (chunkContent ext.content)).2 =
      (db1B, some (sidB, cidsB)))
    (haddB : env.addOk tB = true)
    (harchB : env.archiveFail tB = false) :
    (ingestSource env w source tags [kA, kB]).1.db tA = db1A
    ∧ mkSourceRow sidA ext (finalTagsOf env w tags) ∈
        ((ingestSource env w source tags [kA, kB]).1.db tA).sources
    ∧ (ingestSource env w source tags [kA, kB]).2.targets = some [kB]
    ∧ (ingestSource env w source tags [kA, kB]).2.success = true := by
  have hA := metadataTxn_atomic (env.stmtFail tA) (w.db tA) ext
    (finalTagsOf env w tags)
    (embedChunks env.emb w.cache (chunkContent ext.content)).2
  rw [htxnA] at hA
  rw [ingestSource_mainPath env w source tags [kA, kB] ext hsrc hlock
    hext hne]
  set ft := finalTagsOf env w tags with hft
  set w1 : World :=
    { w with
        lock := some ⟨env.now, some env.selfPid⟩,
        cache := (embedChunks env.emb w.cache
          (chunkContent ext.content)).1 } with hw1
  set ecs := (embedChunks env.emb w.cache (chunkContent ext.content)).2
    with hecs
  rw [processTargets_cons env ext ft ecs w1 kA [kB] tA hkA]
  -- dispose of target A according to which step failed
  rcases hfailA with haddA | ⟨haddA, harchA⟩
  case inl =>
    rw [processTarget_vecFail env ext ft ecs w1 tA db1A sidA cidsA hrepoA
      hdupA htxnA haddA]
    dsimp only
    have hdbB : ((w1.setDb tA db1A).db tB) = w.db tB := by
      simp [World.setDb, Ne.symm hAB]
    have hdupB2 : ((w1.setDb tA db1A).db tB).sources.any
        (fun s => s.normalized_url = ext.normalizedSource) = false := by
      rw [hdbB]; exact hdupB
    have htxnB2 : metadataTxn (env.stmtFail tB) ((w1.setDb tA db1A).db tB)
        ext ft ecs = (db1B, some (sidB, cidsB)) := by
      rw [hdbB]; exact htxnB
    rw [processTargets_cons env ext ft ecs (w1.setDb tA db1A) kB [] tB hkB]
    rw [processTarget_fullSuccess env ext ft ecs (w1.setDb tA db1A) tB
      db1B sidB cidsB hrepoB hdupB2 htxnB2 haddB harchB]
    dsimp only [processTargets]
    refine ⟨?_, ?_, by simp, by simp⟩
    · rw [show (World.clearLock ((((w1.setDb tA db1A).setDb tB db1B).setVecs
          tB ((w1.setDb tA db1A).vecs tB ++
            mkRecords (buildChunksWithIds ecs cidsB sidB ext ft)
              (ecs.map EmbeddedChunk.embedding))).setArchived tB
          ((w1.setDb tA db1A).archived tB ++
            [archivePath env ext sidB]))).db tA =
          (((w1.setDb tA db1A).setDb tB db1B).db tA) from rfl]
      simp [World.setDb, hAB]
    · rw [show (World.clearLock ((((w1.setDb tA db1A).setDb tB db1B).setVecs
          tB ((w1.setDb tA db1A).vecs tB ++
            mkRecords (buildChunksWithIds ecs cidsB sidB ext ft)
              (ecs.map EmbeddedChunk.embedding))).setArchived tB
          ((w1.setDb tA db1A).archived tB ++
            [archivePath env ext sidB]))).db tA =
          (((w1.setDb tA db1A).setDb tB db1B).db tA) from rfl]
      have : (((w1.setDb tA db1A).setDb tB db1B).db tA) = db1A := by
        simp [World.setDb, hAB]
      rw [this, hA.2.1]
      simp [hA.1]
  case inr =>
    rw [processTarget_archiveFail env ext ft ecs w1 tA db1A sidA cidsA
      hrepoA hdupA htxnA haddA harchA]
    dsimp only
    set wA : World := (w1.setDb tA db1A).setVecs tA
      (w1.vecs tA ++ mkRecords (buildChunksWithIds ecs cidsA sidA ext ft)
        (ecs.map EmbeddedChunk.embedding)) with hwA
    have hdbB : (wA.db tB) = w.db tB := by
      rw [hwA]
      simp [World.setVecs, World.setDb, Ne.symm hAB]
    have hdupB2 : (wA.db tB).sources.any
        (fun s => s.normalized_url = ext.normalizedSource) = false := by
      rw [hdbB]; exact hdupB
    have htxnB2 : metadataTxn (env.stmtFail tB) (wA.db tB)
        ext ft ecs = (db1B, some (sidB, cidsB)) := by
      rw [hdbB]; exact htxnB
    rw [processTargets_cons env ext ft ecs wA kB [] tB hkB]
    rw [processTarget_fullSuccess env ext ft ecs wA tB
      db1B sidB cidsB hrepoB hdupB2 htxnB2 haddB harchB]
    dsimp only [processTargets]
    have hfin : (World.clearLock (((wA.setDb tB db1B).setVecs
        tB (wA.vecs tB ++
          mkRecords (buildChunksWithIds ecs cidsB sidB ext ft)
            (ecs.map EmbeddedChunk.embedding))).setArchived tB
        (wA.archived tB ++ [archivePath env ext sidB]))).db tA =
        ((wA.setDb tB db1B).db tA) := rfl
    have hdbA : ((wA.setDb tB db1B).db tA) = db1A := by
      rw [hwA]
      simp [World.setVecs, World.setDb, hAB]
    refine ⟨?_, ?_, by simp, by simp⟩
    · rw [hfin, hdbA]
    · rw [hfin, hdbA, hA.2.1]
      simp [hA.1]

/-- A concrete environment whose vector store rejects writes for the
`pablo` target only. -/
def sampleEnvVecFail : Env :=
  { sampleEnv with addOk := fun tk => tk ≠ TargetKey.pablo }

/-- Witness for C7 at the shared fixtures: with the `pablo` vector add
failing, the committed `pablo` Source row survives, and the run proceeds
to `paloma`, which succeeds. -/
theorem ingest_partial_failure_continues_witness :
    mkSourceRow 1 sampleExt (finalTagsOf sampleEnvVecFail sampleWorld []) ∈
      ((ingestSource sampleEnvVecFail sampleWorld "file.txt" []
        ["pablo", "paloma"]).1.db TargetKey.pablo).sources
    ∧ (ingestSource sampleEnvVecFail sampleWorld "file.txt" []
        ["pablo", "paloma"]).2.targets = some ["paloma"]
    ∧ (ingestSource sampleEnvVecFail sampleWorld "file.txt" []
        ["pablo", "paloma"]).2.success = true :=
  have h := ingest_partial_failure_continues sampleEnvVecFail sampleWorld
    "file.txt" [] "pablo" "paloma" TargetKey.pablo TargetKey.paloma
    sampleExt
    (metadataTxn (sampleEnvVecFail.stmtFail TargetKey.pablo)
      (sampleWorld.db TargetKey.pablo) sampleExt
      (finalTagsOf sampleEnvVecFail sampleWorld [])
      (embedChunks sampleEnvVecFail.emb sampleWorld.cache
        (chunkContent sampleExt.content)).2).1
    (metadataTxn (sampleEnvVecFail.stmtFail TargetKey.paloma)
      (sampleWorld.db TargetKey.paloma) sampleExt
      (finalTagsOf sampleEnvVecFail sampleWorld [])
      (embedChunks sampleEnvVecFail.emb sampleWorld.cache
        (chunkContent sampleExt.content)).2).1
    1 1 [1] [1]
    rfl rfl (by decide) (by decide) rfl rfl (by decide) rfl (by decide)
    (by decide) (Or.inl (by decide)) rfl (by decide) (by decide) rfl rfl
  ⟨h.2.1, h.2.2.1, h.2.2.2⟩

/-! ## C9 — query-time deduplication keeps the closest hit per locator -/

/-- Every entry of a `dedupStep` result is an old entry or the new
hit. -/
theorem dedupStep_mem (m : List (String × Meta × ℚ)) (md : Meta) (d : ℚ)
    (e : String × Meta × ℚ) (he : e ∈ dedupStep m md d) :
    e ∈ m ∨ e = (md.url, md, d) := by
  unfold dedupStep at he
  by_cases h : m.any (fun e => e.1 = md.url)
  · rw [if_pos h] at he
    obtain ⟨e0, he0, hfe⟩ := List.mem_map.mp he
    by_cases hc : e0.1 = md.url ∧ d < e0.2.2
    · right; rw [if_pos hc] at hfe; exact hfe.symm
    · left; rw [if_neg hc] at hfe; exact hfe ▸ he0
  · rw [if_neg h] at he
    rcases List.mem_append.mp he with h1 | h1
    · exact Or.inl h1
    · exact Or.inr (List.mem_singleton.mp h1)

/-- `dedupStep` on a present key keeps the key list. -/
theorem dedupStep_keys_present (m : List (String × Meta × ℚ)) (md : Meta)
    (d : ℚ) (h : m.any (fun e => e.1 = md.url) = true) :
    (dedupStep m md d).map Prod.fst = m.map Prod.fst := by
  unfold dedupStep
  rw [if_pos h, List.map_map]
  apply List.map_congr_left
  intro e _
  by_cases hc : e.1 = md.url ∧ d < e.2.2
  · simp only [Function.comp, if_pos hc]
    exact hc.1.symm
  · simp only [Function.comp, if_neg hc]

/-- `dedupStep` on an absent key appends it. -/
theorem dedupStep_keys_absent (m : List (String × Meta × ℚ)) (md : Meta)
    (d : ℚ) (h : m.any (fun e => e.1 = md.url) = false) :
    (dedupStep m md d).map Prod.fst = m.map Prod.fst ++ [md.url] := by
  unfold dedupStep
  rw [if_neg (by simp [h]), List.map_append]
  rfl

/-- After a `dedupStep` the key carries a value bounded by the new
distance. -/
theorem dedupStep_bound (m : List (String × Meta × ℚ)) (md : Meta)
    (d : ℚ) : ∃ e ∈ dedupStep m md d, e.1 = md.url ∧ e.2.2 ≤ d := by
  unfold dedupStep
  by_cases h : m.any (fun e => e.1 = md.url)
  · rw [if_pos h]
    obtain ⟨e0, he0, hk⟩ := List.any_eq_true.mp h
    simp only [decide_eq_true_eq] at hk
    by_cases hc : e0.1 = md.url ∧ d < e0.2.2
    · exact ⟨(md.url, md, d), by
        refine List.mem_map.mpr ⟨e0, he0, ?_⟩
        rw [if_pos hc], rfl, le_refl d⟩
    · refine ⟨e0, ?_, hk, ?_⟩
      · refine List.mem_map.mpr ⟨e0, he0, ?_⟩
        rw [if_neg hc]
      · by_cases hd : d < e0.2.2
        · exact absurd ⟨hk, hd⟩ hc
        · exact le_of_not_lt hd
  · rw [if_neg h]
    exact ⟨(md.url, md, d), by simp, rfl, le_refl d⟩

/-- Every entry of the map survives a `dedupVisit` with its key, its
value only shrinking. -/
theorem dedupVisit_mono (m : List (String × Meta × ℚ))
    (h : Option Meta × ℚ) (e : String × Meta × ℚ) (he : e ∈ m) :
    ∃ e2 ∈ dedupVisit m h, e2.1 = e.1 ∧ e2.2.2 ≤ e.2.2 := by
  unfold dedupVisit
  cases h1 : h.1 with
  | none => exact ⟨e, he, rfl, le_refl _⟩
  | some md =>
      dsimp only
      by_cases hu : md.url = ""
      · rw [if_pos hu]; exact ⟨e, he, rfl, le_refl _⟩
      · rw [if_neg hu]
        unfold dedupStep
        by_cases ha : m.any (fun e => e.1 = md.url)
        · rw [if_pos ha]
          by_cases hc : e.1 = md.url ∧ h.2 < e.2.2
          · refine ⟨(md.url, md, h.2), ?_, hc.1.symm, le_of_lt hc.2⟩
            refine List.mem_map.mpr ⟨e, he, ?_⟩
            rw [if_pos hc]
          · refine ⟨e, ?_, rfl, le_refl _⟩
            refine List.mem_map.mpr ⟨e, he, ?_⟩
            rw [if_neg hc]
        · rw [if_neg ha]
          exact ⟨e, List.mem_append_left _ he, rfl, le_refl _⟩

/-- Entries survive the whole dedup loop with shrinking values. -/
theorem dedupLoop_mono :
    ∀ (hits : List (Option Meta × ℚ)) (m : List (String × Meta × ℚ))
      (e : String × Meta × ℚ), e ∈ m →
      ∃ e2 ∈ hits.foldl dedupVisit m, e2.1 = e.1 ∧ e2.2.2 ≤ e.2.2 := by
  intro hits
  induction hits with
  | nil => intro m e he; exact ⟨e, he, rfl, le_refl _⟩
  | cons h t ih =>
      intro m e he
      obtain ⟨e1, he1, hk1, hv1⟩ := dedupVisit_mono m h e he
      obtain ⟨e2, he2, hk2, hv2⟩ := ih (dedupVisit m h) e1 he1
      exact ⟨e2, by simpa using he2, hk2.trans hk1, hv2.trans hv1⟩

/-- Every entry of the final map is an initial entry or traces back to a
valid hit. -/
theorem dedupLoop_mem :
    ∀ (hits : List (Option Meta × ℚ)) (m : List (String × Meta × ℚ))
      (e : String × Meta × ℚ), e ∈ hits.foldl dedupVisit m →
      e ∈ m ∨ (e.1 = e.2.1.url ∧ e.2.1.url ≠ "" ∧
        (some e.2.1, e.2.2) ∈ hits) := by
  intro hits
  induction hits with
  | nil => intro m e he; exact Or.inl he
  | cons h t ih =>
      intro m e he
      rcases ih (dedupVisit m h) e (by simpa using he) with h1 | h1
      · unfold dedupVisit at h1
        cases hh : h.1 with
        | none => rw [hh] at h1; exact Or.inl h1
        | some md =>
            rw [hh] at h1
            dsimp only at h1
            by_cases hu : md.url = ""
            · rw [if_pos hu] at h1; exact Or.inl h1
            · rw [if_neg hu] at h1
              rcases dedupStep_mem m md h.2 e h1 with h2 | h2
              · exact Or.inl h2
              · right
                subst h2
                refine ⟨rfl, hu, ?_⟩
                have hhh : h = (some md, h.2) := by
                  rw [← hh]
                rw [List.mem_cons]
                left
                rw [hhh]
      · right
        exact ⟨h1.1, h1.2.1, List.mem_cons_of_mem h h1.2.2⟩

/-- A `dedupVisit` keeps all keys non-empty. -/
theorem dedupVisit_keys_ne (m : List (String × Meta × ℚ))
    (h : Option Meta × ℚ) (hm : ∀ e ∈ m, e.1 ≠ "")
    (e : String × Meta × ℚ) (he : e ∈ dedupVisit m h) : e.1 ≠ "" := by
  unfold dedupVisit at he
  cases hh : h.1 with
  | none => rw [hh] at he; exact hm e he
  | some md =>
      rw [hh] at he
      dsimp only at he
      by_cases hu : md.url = ""
      · rw [if_pos hu] at he; exact hm e he
      · rw [if_neg hu] at he
        rcases dedupStep_mem m md h.2 e he with h2 | h2
        · exact hm e h2
        · rw [h2]; exact hu

/-- A `dedupVisit` keeps the key list duplicate-free. -/
theorem dedupVisit_keys_nodup (m : List (String × Meta × ℚ))
    (h : Option Meta × ℚ) (hm : (m.map Prod.fst).Nodup) :
    ((dedupVisit m h).map Prod.fst).Nodup := by
  unfold dedupVisit
  cases hh : h.1 with
  | none => exact hm
  | some md =>
      dsimp only
      by_cases hu : md.url = ""
      · rw [if_pos hu]; exact hm
      · rw [if_neg hu]
        cases ha : m.any (fun e => e.1 = md.url) with
        | true => rw [dedupStep_keys_present m md h.2 ha]; exact hm
        | false =>
            rw [dedupStep_keys_absent m md h.2 ha]
            rw [List.nodup_append]
            refine ⟨hm, List.nodup_singleton _, ?_⟩
            intro a hain hain2
            rw [List.mem_singleton] at hain2
            subst hain2
            obtain ⟨e0, he0, hk⟩ := List.mem_map.mp hain
            have ha2 := List.any_eq_false.mp ha e0 he0
            simp only [decide_eq_true_eq] at ha2
            exact ha2 hk

/-- The whole dedup loop keeps the key list duplicate-free. -/
theorem dedupLoop_keys_nodup :
    ∀ (hits : List (Option Meta × ℚ)) (m : List (String × Meta × ℚ)),
      (m.map Prod.fst).Nodup →
      ((hits.foldl dedupVisit m).map Prod.fst).Nodup := by
  intro hits
  induction hits with
  | nil => intro m hm; exact hm
  | cons h t ih =>
      intro m hm
      simpa using ih (dedupVisit m h) (dedupVisit_keys_nodup m h hm)

/-- The whole dedup loop keeps all keys non-empty. -/
theorem dedupLoop_keys_ne :
    ∀ (hits : List (Option Meta × ℚ)) (m : List (String × Meta × ℚ)),
      (∀ e ∈ m, e.1 ≠ "") →
      ∀ e ∈ hits.foldl dedupVisit m, e.1 ≠ "" := by
  intro hits
  induction hits with
  | nil => intro m hm; exact hm
  | cons h t ih =>
      intro m hm e he
      exact ih (dedupVisit m h) (dedupVisit_keys_ne m h hm) e
        (by simpa using he)

/-- Distinct entries of a list with duplicate-free keys are separated by
their keys. -/
theorem keys_nodup_inj {α β : Type} (f : α → β) :
    ∀ (l : List α), (l.map f).Nodup →
      ∀ e ∈ l, ∀ e2 ∈ l, f e = f e2 → e = e2 := by
  intro l
  induction l with
  | nil => intro _ e he; cases he
  | cons a t ih =>
      intro hn e he e2 he2 hf
      simp only [List.map_cons, List.nodup_cons] at hn
      rcases List.mem_cons.mp he with h1 | h1
      · rcases List.mem_cons.mp he2 with h2 | h2
        · rw [h1, h2]
        · have : f a ∈ List.map f t := by
            rw [← h1, hf]
            exact List.mem_map_of_mem f h2
          exact absurd this hn.1
      · rcases List.mem_cons.mp he2 with h2 | h2
        · have : f a ∈ List.map f t := by
            rw [← h2, ← hf]
            exact List.mem_map_of_mem f h1
          exact absurd this hn.1
        · exact ih hn.2 e h1 e2 h2 hf

/-- Minimality: after the loop, the entry stored under a locator is at
most every distance that locator was seen with. -/
theorem dedupLoop_min :
    ∀ (hits : List (Option Meta × ℚ)) (m : List (String × Meta × ℚ)),
      (m.map Prod.fst).Nodup → (∀ e0 ∈ m, e0.1 ≠ "") →
      ∀ e ∈ hits.foldl dedupVisit m, ∀ md d, (some md, d) ∈ hits →
        md.url = e.1 → e.2.2 ≤ d := by
  intro hits
  induction hits with
  | nil => intro m _ _ e _ md d hmem; cases hmem
  | cons h t ih =>
      intro m hnodup hne e he md d hmem hurl
      rcases List.mem_cons.mp hmem with rfl | hmem
      · -- the hit is the head: the key md.url is stored with a value
        -- at most d after the visit, shrinks afterwards, and the final
        -- entry under that key is unique
        have hu : md.url ≠ "" := by
          intro hu0
          rcases dedupLoop_mem t (dedupVisit m (some md, d)) e
              (by simpa using he) with h1 | h1
          · exact dedupVisit_keys_ne m (some md, d) hne e h1
              (by rw [← hurl]; exact hu0)
          · exact h1.2.1 (by rw [← h1.1, ← hurl]; exact hu0)
        have hstep : ∃ e1 ∈ dedupVisit m (some md, d), e1.1 = md.url ∧
            e1.2.2 ≤ d := by
          unfold dedupVisit
          dsimp only
          simp only [if_neg hu]
          exact dedupStep_bound m md d
        obtain ⟨e1, he1, hk1, hv1⟩ := hstep
        obtain ⟨e2, he2, hk2, hv2⟩ := dedupLoop_mono t _ e1 he1
        have hfin : ((t.foldl dedupVisit
            (dedupVisit m (some md, d))).map Prod.fst).Nodup :=
          dedupLoop_keys_nodup t _ (dedupVisit_keys_nodup m _ hnodup)
        have : e = e2 := by
          refine keys_nodup_inj Prod.fst _ hfin e (by simpa using he) e2
            he2 ?_
          rw [hk2, hk1, hurl]
        rw [this]
        exact hv2.trans hv1
      · exact ih (dedupVisit m h) (dedupVisit_keys_nodup m h hnodup)
          (dedupVisit_keys_ne m h hne) e (by simpa using he) md d hmem hurl

/-- Completeness: every valid hit's locator ends up in the map. -/
theorem dedupLoop_complete :
    ∀ (hits : List (Option Meta × ℚ)) (m : List (String × Meta × ℚ)),
      ∀ md d, (some md, d) ∈ hits → md.url ≠ "" →
      ∃ e ∈ hits.foldl dedupVisit m, e.1 = md.url := by
  intro hits
  induction hits with
  | nil => intro m md d hmem; cases hmem
  | cons h t ih =>
      intro m md d hmem hu
      rcases List.mem_cons.mp hmem with rfl | hmem
      · have hstep : ∃ e1 ∈ dedupVisit m (some md, d), e1.1 = md.url ∧
            e1.2.2 ≤ d := by
          unfold dedupVisit
          dsimp only
          simp only [if_neg hu]
          exact dedupStep_bound m md d
        obtain ⟨e1, he1, hk1, _⟩ := hstep
        obtain ⟨e2, he2, hk2, _⟩ := dedupLoop_mono t _ e1 he1
        exact ⟨e2, by simpa using he2, hk2.trans hk1⟩
      · obtain ⟨e, he, hk⟩ := ih (dedupVisit m h) md d hmem hu
        exact ⟨e, by simpa using he, hk⟩

/-- Inserting into a distance-sorted list permutes a cons. -/
theorem insertByDist_perm (x : Meta × ℚ) :
    ∀ l : List (Meta × ℚ), List.Perm (insertByDist x l) (x :: l) := by
  intro l
  induction l with
  | nil => simp [insertByDist]
  | cons y rest ih =>
      unfold insertByDist
      by_cases h : y.2 ≤ x.2
      · rw [if_pos h]
        exact (ih.cons y).trans (List.Perm.swap x y rest)
      · rw [if_neg h]

/-- The stable sort is a permutation. -/
theorem sortByDist_perm (l : List (Meta × ℚ)) :
    List.Perm (sortByDist l) l := by
  suffices h : ∀ (l acc : List (Meta × ℚ)),
      List.Perm (l.foldl (fun a x => insertByDist x a) acc) (acc ++ l) by
    simpa using h l []
  intro l
  induction l with
  | nil => intro acc; simp
  | cons x rest ih =>
      intro acc
      refine (ih (insertByDist x acc)).trans ?_
      refine (List.Perm.append_right rest (insertByDist_perm x acc)).trans ?_
      exact List.perm_middle.symm

/-- Inserting into a distance-sorted list keeps it sorted. -/
theorem insertByDist_sorted (x : Meta × ℚ) :
    ∀ l : List (Meta × ℚ), l.Pairwise (fun a b => a.2 ≤ b.2) →
      (insertByDist x l).Pairwise (fun a b => a.2 ≤ b.2) := by
  intro l
  induction l with
  | nil => intro _; simp [insertByDist]
  | cons y rest ih =>
      intro hp
      rw [List.pairwise_cons] at hp
      unfold insertByDist
      by_cases h : y.2 ≤ x.2
      · rw [if_pos h]
        rw [List.pairwise_cons]
        refine ⟨?_, ih hp.2⟩
        intro z hz
        have hz2 := (insertByDist_perm x rest).mem_iff.mp hz
        rcases List.mem_cons.mp hz2 with h1 | h1
        · rw [h1]; exact h
        · exact hp.1 z h1
      · rw [if_neg h]
        rw [List.pairwise_cons]
        refine ⟨?_, List.pairwise_cons.mpr hp⟩
        intro z hz
        rcases List.mem_cons.mp hz with h1 | h1
        · rw [h1]; exact le_of_not_le h
        · exact (le_of_not_le h).trans (hp.1 z h1)

/-- The stable sort sorts ascending by distance. -/
theorem sortByDist_sorted (l : List (Meta × ℚ)) :
    (sortByDist l).Pairwise (fun a b => a.2 ≤ b.2) := by
  suffices h : ∀ (l acc : List (Meta × ℚ)),
      acc.Pairwise (fun a b => a.2 ≤ b.2) →
      (l.foldl (fun a x => insertByDist x a) acc).Pairwise
        (fun a b => a.2 ≤ b.2) by
    exact h l [] (by simp)
  intro l
  induction l with
  | nil => intro acc h; exact h
  | cons x rest ih =>
      intro acc h
      exact ih (insertByDist x acc) (insertByDist_sorted x acc h)

/-- **C9.** Query-time deduplication (`dedupAndSort`, steps (3) of
`answerQuery`) keeps for each source locator exactly one hit — one of
the input hits, with the lowest distance recorded for that locator —
discards the rest, and returns the kept hits sorted ascending by
distance: the locators of the output are duplicate-free, every output
element is an input hit with a non-empty locator, its distance is at
most every input distance for the same locator, every valid input
locator appears, and the output distances are ascending. -/
theorem answerQuery_dedup (hits : List (Option Meta × ℚ)) :
    ((dedupAndSort hits).map (fun e => e.1.url)).Nodup
    ∧ (∀ e ∈ dedupAndSort hits, (some e.1, e.2) ∈ hits ∧ e.1.url ≠ "")
    ∧ (∀ e ∈ dedupAndSort hits, ∀ md d, (some md, d) ∈ hits →
        md.url = e.1.url → e.2 ≤ d)
    ∧ (∀ md d, (some md, d) ∈ hits → md.url ≠ "" →
        ∃ e ∈ dedupAndSort hits, e.1.url = md.url)
    ∧ (dedupAndSort hits).Pairwise (fun a b => a.2 ≤ b.2) := by
  have hgood : ∀ x ∈ hits.foldl dedupVisit [], x.1 = x.2.1.url ∧
      x.2.1.url ≠ "" ∧ (some x.2.1, x.2.2) ∈ hits := by
    intro x hx
    rcases dedupLoop_mem hits [] x hx with h | h
    · cases h
    · exact h
  have hmem : ∀ e, e ∈ dedupAndSort hits ↔
      ∃ x ∈ hits.foldl dedupVisit [], x.2 = e := by
    intro e
    unfold dedupAndSort dedupByUrl
    rw [(sortByDist_perm _).mem_iff, List.mem_map]
  refine ⟨?_, ?_, ?_, ?_, ?_⟩
  · have hperm : List.Perm ((dedupAndSort hits).map (fun e => e.1.url))
        ((dedupByUrl hits).map (fun e => e.1.url)) :=
      List.Perm.map _ (sortByDist_perm _)
    rw [hperm.nodup_iff]
    unfold dedupByUrl
    rw [List.map_map]
    have : ((hits.foldl dedupVisit []).map
        ((fun e : Meta × ℚ => e.1.url) ∘ (fun e => e.2))) =
        ((hits.foldl dedupVisit []).map Prod.fst) := by
      apply List.map_congr_left
      intro x hx
      exact ((hgood x hx).1).symm
    rw [this]
    exact dedupLoop_keys_nodup hits [] (by simp)
  · intro e he
    obtain ⟨x, hx, hxe⟩ := (hmem e).mp he
    obtain ⟨h1, h2, h3⟩ := hgood x hx
    subst hxe
    exact ⟨h3, h2⟩
  · intro e he md d hmd hurl
    obtain ⟨x, hx, hxe⟩ := (hmem e).mp he
    obtain ⟨h1, _, _⟩ := hgood x hx
    subst hxe
    exact dedupLoop_min hits [] (by simp) (by simp) x hx md d hmd
      (by rw [hurl, ← h1])
  · intro md d hmd hu
    obtain ⟨x, hx, hk⟩ := dedupLoop_complete hits [] md d hmd hu
    refine ⟨x.2, (hmem x.2).mpr ⟨x, hx, rfl⟩, ?_⟩
    rw [← (hgood x hx).1, hk]
  · exact sortByDist_sorted _

/-- Witness for C9: two hits for the same locator at distances 0.1
(`mkRat 1 10`) and 0.3 keep only the 0.1 hit, and the instantiated
properties hold. -/
theorem answerQuery_dedup_witness :
    dedupAndSort
      [(some ⟨1, "c1", "u", "t1", ""⟩, mkRat 1 10),
       (some ⟨1, "c2", "u", "t2", ""⟩, mkRat 3 10)] =
      [(⟨1, "c1", "u", "t1", ""⟩, mkRat 1 10)]
    ∧ (dedupAndSort
        [(some ⟨1, "c1", "u", "t1", ""⟩, mkRat 1 10),
         (some ⟨1, "c2", "u", "t2", ""⟩, mkRat 3 10)]).Pairwise
        (fun a b => a.2 ≤ b.2) :=
  ⟨by decide,
   (answerQuery_dedup
     [(some ⟨1, "c1", "u", "t1", ""⟩, mkRat 1 10),
      (some ⟨1, "c2", "u", "t2", ""⟩, mkRat 3 10)]).2.2.2.2⟩

/-! ## C8 — batch embedding returns an order-preserving subsequence -/

/-- The observable part of a chunk: its text and index. -/
def stripC (c : Chunk) : String × Nat := (c.content, c.chunk_index)

/-- The observable part of an embedded chunk. -/
def stripE (ec : EmbeddedChunk) : String × Nat := (ec.content, ec.chunk_index)

/-- A result map is faithful to a batch from offset `start`: whatever is
stored at position `start + i` carries the text and index of the batch's
`i`-th chunk. -/
def Faithful (res : Nat → Option EmbeddedChunk) (start : Nat)
    (l : List Chunk) : Prop :=
  ∀ i, i < l.length → ∀ ec, res (start + i) = some ec →
    stripE ec = stripC (l.getD i ⟨"", 0⟩)

/-- The cache-partition pass stores only at positions of its batch. -/
theorem cachePass_dom :
    ∀ (l : List Chunk) (cache : LRU) (idx : Nat) (j : Nat)
      (ec : EmbeddedChunk), (cachePass cache idx l).2.1 j = some ec →
      idx ≤ j ∧ j < idx + l.length := by
  intro l
  induction l with
  | nil =>
      intro cache idx j ec hec
      unfold cachePass at hec
      cases hec
  | cons c rest ih =>
      intro cache idx j ec hec
      unfold cachePass at hec
      dsimp only at hec
      cases hg : (cache.get c.content).1 with
      | some emb =>
          rw [hg] at hec
          dsimp only at hec
          by_cases hj : j = idx
          · subst hj
            simp only [List.length_cons]
            omega
          · rw [if_neg hj] at hec
            have := ih (cache.get c.content).2 (idx + 1) j ec hec
            simp only [List.length_cons]
            omega
      | none =>
          rw [hg] at hec
          dsimp only at hec
          have := ih (cache.get c.content).2 (idx + 1) j ec hec
          simp only [List.length_cons]
          omega

/-- The cache-partition pass produces a faithful result map. -/
theorem cachePass_faithful :
    ∀ (l : List Chunk) (cache : LRU) (idx : Nat),
      Faithful (cachePass cache idx l).2.1 idx l := by
  intro l
  induction l with
  | nil =>
      intro cache idx i hi
      simp at hi
  | cons c rest ih =>
      intro cache idx i hi ec hec
      unfold cachePass at hec
      dsimp only at hec
      cases hg : (cache.get c.content).1 with
      | some emb =>
          rw [hg] at hec
          dsimp only at hec
          by_cases hieq : idx + i = idx
          · rw [if_pos hieq] at hec
            have : i = 0 := by omega
            subst this
            cases hec.symm
            simp [stripE, stripC]
          · rw [if_neg hieq] at hec
            have hi0 : i ≠ 0 := by omega
            obtain ⟨i2, rfl⟩ := Nat.exists_eq_succ_of_ne_zero hi0
            have hec2 : (cachePass (cache.get c.content).2 (idx + 1)
                rest).2.1 ((idx + 1) + i2) = some ec := by
              rw [show idx + 1 + i2 = idx + (i2 + 1) by omega]
              exact hec
            have := ih (cache.get c.content).2 (idx + 1) i2
              (by simpa using hi) ec hec2
            simpa using this
      | none =>
          rw [hg] at hec
          dsimp only at hec
          rcases Nat.eq_zero_or_pos i with rfl | hpos
          · have := cachePass_dom rest (cache.get c.content).2 (idx + 1)
              (idx + 0) ec hec
            omega
          · obtain ⟨i2, rfl⟩ := Nat.exists_eq_succ_of_ne_zero
              (Nat.pos_iff_ne_zero.mp hpos)
            have hec2 : (cachePass (cache.get c.content).2 (idx + 1)
                rest).2.1 ((idx + 1) + i2) = some ec := by
              rw [show idx + 1 + i2 = idx + (i2 + 1) by omega]
              exact hec
            have := ih (cache.get c.content).2 (idx + 1) i2
              (by simpa using hi) ec hec2
            simpa using this

/-- The merge pass keeps the result map faithful (it stores, at each
original index, an embedded chunk built from the batch's chunk at that
very index). -/
theorem mergePass_faithful (batchChunks : List Chunk)
    (provider modelName : String) :
    ∀ (pairs : List (List ℚ × Nat)) (cache : LRU)
      (res : Nat → Option EmbeddedChunk),
      Faithful res 0 batchChunks →
      Faithful (mergePass batchChunks provider modelName cache res pairs).2
        0 batchChunks := by
  intro pairs
  induction pairs with
  | nil => intro cache res h; exact h
  | cons p rest ih =>
      intro cache res h
      unfold mergePass
      refine ih _ _ ?_
      intro i hi ec hec
      dsimp only at hec
      by_cases hio : i = p.2
      · rw [if_pos (by omega : 0 + i = p.2)] at hec
        cases hec.symm
        subst hio
        simp [stripE, stripC]
      · rw [if_neg (by omega : ¬ 0 + i = p.2)] at hec
        exact h i hi ec hec

/-- Collecting a faithful result map in index order yields (observably)
a sublist of the batch. -/
theorem collectPass_sublist :
    ∀ (l : List Chunk) (res : Nat → Option EmbeddedChunk) (start : Nat),
      (∀ i, i < l.length → ∀ ec, res (start + i) = some ec →
        stripE ec = stripC (l.getD i ⟨"", 0⟩)) →
      ((collectPass res start l.length).map stripE).Sublist
        (l.map stripC) := by
  intro l
  induction l with
  | nil => intro res start _; simp [collectPass]
  | cons c rest ih =>
      intro res start h
      have hshift : ∀ i, i < rest.length → ∀ ec,
          res (start + 1 + i) = some ec →
          stripE ec = stripC (rest.getD i ⟨"", 0⟩) := by
        intro i hi ec hec
        have := h (i + 1) (by simpa using Nat.succ_lt_succ hi) ec (by
          rw [← hec]; congr 1; omega)
        simpa using this
      simp only [List.length_cons, collectPass, List.map_cons]
      cases hres : res start with
      | some ec =>
          have hec := h 0 (by simp) ec (by simpa using hres)
          simp only [List.getD_cons_zero] at hec
          simpa [hec] using (ih res (start + 1) hshift).cons₂ (stripC c)
      | none =>
          exact (ih res (start + 1) hshift).cons (stripC c)

/-- One batch of `embedChunks` yields (observably) a sublist of its
batch. -/
theorem embedBatch_sublist (env : EmbEnv) (cache : LRU)
    (batchChunks : List Chunk) :
    (((embedBatch env cache batchChunks).2).map stripE).Sublist
      (batchChunks.map stripC) := by
  unfold embedBatch
  by_cases hcs : (cachePass cache 0 batchChunks).2.2.1 = []
  · rw [if_pos hcs]
    exact collectPass_sublist batchChunks _ 0
      (cachePass_faithful batchChunks cache 0)
  · rw [if_neg hcs]
    cases hbe : (match tryGoogle env (cachePass cache 0 batchChunks).2.2.1 with
      | some e => some e
      | none =>
          if env.openaiConfigured then
            env.openai (cachePass cache 0 batchChunks).2.2.1
          else none) with
    | some e =>
        dsimp only
        rw [hbe]
        dsimp only
        by_cases hlen : e.length = (cachePass cache 0 batchChunks).2.2.1.length
        · rw [if_pos hlen]
          exact collectPass_sublist batchChunks _ 0
            (mergePass_faithful batchChunks _ _ _ _ _
              (cachePass_faithful batchChunks cache 0))
        · rw [if_neg hlen]
          exact collectPass_sublist batchChunks _ 0
            (cachePass_faithful batchChunks cache 0)
    | none =>
        dsimp only
        rw [hbe]
        dsimp only
        exact collectPass_sublist batchChunks _ 0
          (cachePass_faithful batchChunks cache 0)

/-- All batches together yield (observably) a sublist of their
flattening. -/
theorem embedBatches_sublist (env : EmbEnv) :
    ∀ (bs : List (List Chunk)) (cache : LRU),
      (((embedBatches env cache bs).2).map stripE).Sublist
        (bs.flatten.map stripC) := by
  intro bs
  induction bs with
  | nil => intro cache; simp [embedBatches]
  | cons b bs ih =>
      intro cache
      simp only [embedBatches, List.flatten_cons, List.map_append]
      exact (embedBatch_sublist env cache b).append
        (ih (embedBatch env cache b).1)

/-- **C8.** For every input list, `embedChunks` returns at most one
embedded chunk per input element: the outputs, viewed by their text and
index, form an order-preserving subsequence (sublist) of the inputs —
entries whose embedding fails are omitted — and in particular the
output length never exceeds the input length. -/
theorem embedChunks_sublist (env : EmbEnv) (cache : LRU)
    (chunks : List Chunk) :
    (((embedChunks env cache chunks).2).map stripE).Sublist
      (chunks.map stripC)
    ∧ (embedChunks env cache chunks).2.length ≤ chunks.length := by
  have h : (((embedChunks env cache chunks).2).map stripE).Sublist
      (chunks.map stripC) := by
    have := embedBatches_sublist env (batchesOf 10 chunks) cache
    rw [batchesOf_flatten] at this
    exact this
  refine ⟨h, ?_⟩
  have := h.length_le
  simpa using this

/-! ## C6 — chunk reconstruction -/

/-- The tail contribution of joining sentences onto a non-empty buffer:
a space before each sentence. -/
def tailJoin (sents : List (List Char)) : List Char :=
  (sents.map (fun s => ' ' :: s)).flatten

/-- All chunks a loop state will produce: the closed chunks plus the
trailing buffer. -/
def allChunks (r : List (List Char × Nat) × List Char × Nat) :
    List (List Char) :=
  r.1.map Prod.fst ++ [r.2.1]

/-- Folding the join over sentences appends a space-separated tail. -/
theorem foldl_joinS (sents : List (List Char)) :
    ∀ X : List Char, X ≠ [] →
      sents.foldl joinS X = X ++ tailJoin sents := by
  induction sents with
  | nil => intro X _; simp [tailJoin]
  | cons s rest ih =>
      intro X hX
      have hXs : joinS X s = X ++ ' ' :: s := by
        unfold joinS
        rw [if_neg hX]
      rw [List.foldl_cons, ih (joinS X s) (by simp [hXs]), hXs]
      simp [tailJoin]

/-- The first chunk the loop produces extends the incoming buffer. -/
theorem chunkLoop_head (sents : List (List Char)) :
    ∀ (cur : List Char) (idx : Nat), cur ≠ [] →
      ∃ u t, allChunks (chunkLoop sents cur idx) = (cur ++ u) :: t := by
  induction sents with
  | nil =>
      intro cur idx _
      exact ⟨[], [], by simp [allChunks, chunkLoop]⟩
  | cons s rest ih =>
      intro cur idx hcur
      unfold chunkLoop
      by_cases hfit : cur.length + s.length ≤ 800
      · rw [if_pos hfit]
        have hXs : joinS cur s = cur ++ ' ' :: s := by
          unfold joinS
          rw [if_neg hcur]
        obtain ⟨u, t, hu⟩ := ih (joinS cur s) idx (by simp [hXs])
        exact ⟨' ' :: s ++ u, t, by
          rw [hu, hXs]
          simp⟩
      · rw [if_neg hfit]
        exact ⟨[], allChunks (chunkLoop rest
          (cur.drop (cur.length - 200) ++ ' ' :: s) (idx + 1)), by
            simp [allChunks]⟩

/-- If the loop closes no chunk, the trailing buffer is the full
join. -/
theorem chunkLoop_closed_nil (sents : List (List Char)) :
    ∀ (cur : List Char) (idx : Nat),
      (chunkLoop sents cur idx).1 = [] →
      (chunkLoop sents cur idx).2.1 = sents.foldl joinS cur := by
  induction sents with
  | nil => intro cur idx _; rfl
  | cons s rest ih =>
      intro cur idx h
      unfold chunkLoop at h ⊢
      by_cases hfit : cur.length + s.length ≤ 800
      · rw [if_pos hfit] at h ⊢
        exact ih (joinS cur s) idx h
      · rw [if_neg hfit] at h
        dsimp only at h
        cases h

/-- The trailing buffer of a loop started on a non-empty buffer is
non-empty. -/
theorem chunkLoop_buffer_ne (sents : List (List Char)) :
    ∀ (cur : List Char) (idx : Nat), cur ≠ [] →
      (chunkLoop sents cur idx).2.1 ≠ [] := by
  induction sents with
  | nil => intro cur idx hcur; exact hcur
  | cons s rest ih =>
      intro cur idx hcur
      unfold chunkLoop
      by_cases hfit : cur.length + s.length ≤ 800
      · rw [if_pos hfit]
        refine ih (joinS cur s) idx ?_
        unfold joinS
        rw [if_neg hcur]
        simp
      · rw [if_neg hfit]
        exact ih _ (idx + 1) (by simp)

/-- Once a chunk has been closed, the trailing buffer stays at least
101 characters long (the merge branch of the tail handling is
unreachable). -/
theorem chunkLoop_buffer_long (sents : List (List Char)) :
    ∀ (cur : List Char) (idx : Nat),
      (chunkLoop sents cur idx).1 ≠ [] →
      101 ≤ (chunkLoop sents cur idx).2.1.length := by
  induction sents with
  | nil => intro cur idx h; exact absurd rfl h
  | cons s rest ih =>
      intro cur idx h
      unfold chunkLoop at h ⊢
      by_cases hfit : cur.length + s.length ≤ 800
      · rw [if_pos hfit] at h ⊢
        exact ih _ idx h
      · rw [if_neg hfit] at h ⊢
        dsimp only at h ⊢
        have hnclen : 201 ≤ (cur.drop (cur.length - 200) ++ ' ' :: s).length := by
          simp [List.length_drop]
          omega
        by_cases hcs : (chunkLoop rest
            (cur.drop (cur.length - 200) ++ ' ' :: s) (idx + 1)).1 = []
        · rw [chunkLoop_closed_nil rest _ (idx + 1) hcs,
            foldl_joinS rest _ (by simp)]
          simp only [List.length_append] at hnclen ⊢
          omega
        · exact ih _ (idx + 1) hcs

/-- The loop's chunks reconstruct the join of its sentences onto its
buffer: dropping each chunk's overlap seed and concatenating is exactly
the sentence join. -/
theorem chunkLoop_reconstruct (sents : List (List Char)) :
    ∀ (cur : List Char) (idx : Nat), cur ≠ [] →
      reconstruct (allChunks (chunkLoop sents cur idx)) =
        sents.foldl joinS cur := by
  induction sents with
  | nil =>
      intro cur idx _
      simp [allChunks, chunkLoop, reconstruct, reconAux]
  | cons s rest ih =>
      intro cur idx hcur
      unfold chunkLoop
      by_cases hfit : cur.length + s.length ≤ 800
      · rw [if_pos hfit, List.foldl_cons]
        exact ih (joinS cur s) idx (by
          unfold joinS
          rw [if_neg hcur]
          simp)
      · rw [if_neg hfit]
        dsimp only
        have hncne : (cur.drop (cur.length - 200) ++ ' ' :: s) ≠ [] := by
          simp
        have hAC : allChunks ((cur, idx) :: (chunkLoop rest
            (cur.drop (cur.length - 200) ++ ' ' :: s) (idx + 1)).1,
            (chunkLoop rest
              (cur.drop (cur.length - 200) ++ ' ' :: s) (idx + 1)).2) =
            cur :: allChunks (chunkLoop rest
              (cur.drop (cur.length - 200) ++ ' ' :: s) (idx + 1)) := by
          simp [allChunks]
        rw [hAC]
        obtain ⟨u, t, hu⟩ := chunkLoop_head rest _ (idx + 1) hncne
        rw [hu]
        have hjs : joinS cur s = cur ++ ' ' :: s := by
          unfold joinS
          rw [if_neg hcur]
        rw [List.foldl_cons,
          foldl_joinS rest (joinS cur s) (by rw [hjs]; simp), hjs]
        show cur ++ (((cur.drop (cur.length - 200) ++ ' ' :: s) ++ u).drop
            (min 200 cur.length) ++
            reconAux ((cur.drop (cur.length - 200) ++ ' ' :: s) ++ u) t) = _
        have hdrop : ((cur.drop (cur.length - 200) ++ ' ' :: s) ++ u).drop
            (min 200 cur.length) = ' ' :: s ++ u := by
          rw [List.append_assoc]
          have h2 : min 200 cur.length =
              (cur.drop (cur.length - 200)).length := by
            simp [List.length_drop]
            omega
          rw [h2, List.drop_left]
        rw [hdrop]
        have hrec := ih _ (idx + 1) hncne
        rw [hu] at hrec
        have hrec2 : ((cur.drop (cur.length - 200) ++ ' ' :: s) ++ u) ++
            reconAux ((cur.drop (cur.length - 200) ++ ' ' :: s) ++ u) t =
            (cur.drop (cur.length - 200) ++ ' ' :: s) ++ tailJoin rest := by
          have hre : reconstruct (((cur.drop (cur.length - 200) ++ ' ' :: s)
              ++ u) :: t) = ((cur.drop (cur.length - 200) ++ ' ' :: s) ++ u)
              ++ reconAux ((cur.drop (cur.length - 200) ++ ' ' :: s) ++ u) t :=
            rfl
          rw [← hre, hrec, foldl_joinS rest _ hncne]
        rw [List.append_assoc] at hrec2
        have hu2 := List.append_cancel_left hrec2
        calc cur ++ ((' ' :: s ++ u) ++
              reconAux ((cur.drop (cur.length - 200) ++ ' ' :: s) ++ u) t)
            = cur ++ (' ' :: s ++ (u ++
              reconAux ((cur.drop (cur.length - 200) ++ ' ' :: s) ++ u) t)) := by
              simp
          _ = cur ++ (' ' :: s ++ tailJoin rest) := by rw [hu2]
          _ = (cur ++ ' ' :: s) ++ tailJoin rest := by simp

/-- The sentence splitter state machine never returns an empty list. -/
theorem ssGo_ne_nil :
    ∀ (l : List Char) (skip : Bool) (prev : Option Char) (acc : List Char),
      ssGo skip prev acc l ≠ [] := by
  intro l
  induction l with
  | nil => intro skip prev acc; cases skip <;> simp [ssGo]
  | cons c rest ih =>
      intro skip prev acc
      cases skip with
      | true =>
          unfold ssGo
          by_cases h : isWsChar c
          · rw [if_pos h]; exact ih true none acc
          · rw [if_neg h]; exact ih false (some c) (c :: acc)
      | false =>
          unfold ssGo
          by_cases h : (isWsChar c && prevIsTerm prev) = true
          · rw [if_pos h]; simp
          · rw [if_neg h]; exact ih false (some c) (c :: acc)

/-- In accumulate mode with a non-empty accumulator the first emitted
sentence is non-empty. -/
theorem ssGo_head_ne :
    ∀ (l : List Char) (prev : Option Char) (acc : List Char), acc ≠ [] →
      ∃ s t, ssGo false prev acc l = s :: t ∧ s ≠ [] := by
  intro l
  induction l with
  | nil =>
      intro prev acc hacc
      exact ⟨acc.reverse, [], rfl, by simpa using hacc⟩
  | cons c rest ih =>
      intro prev acc hacc
      unfold ssGo
      by_cases h : (isWsChar c && prevIsTerm prev) = true
      · rw [if_pos h]
        exact ⟨acc.reverse, ssGo true none [] rest, rfl, by simpa using hacc⟩
      · rw [if_neg h]
        exact ih (some c) (c :: acc) (by simp)

/-- A non-empty input has a non-empty first sentence. -/
theorem sentSplit_head_ne (content : List Char) (h : content ≠ []) :
    ∃ s t, sentSplit content = s :: t ∧ s ≠ [] := by
  unfold sentSplit
  cases content with
  | nil => exact absurd rfl h
  | cons c rest =>
      unfold ssGo
      have hsep : (isWsChar c && prevIsTerm none) = false := by
        simp [prevIsTerm]
      rw [if_neg (by simp [hsep])]
      exact ssGo_head_ne rest (some c) [c] (by simp)

/-- **C6 counterexample.** Chunking collapses the whitespace between
sentences: the input `"A.  B."` (two spaces) produces the single chunk
`"A. B."` (one space), so concatenating the chunk texts — there is no
overlap window to remove for a single chunk — does not reconstruct the
original text. -/
theorem chunkContent_not_reconstruct_original :
    (chunkContent "A.  B.").map (fun c => c.content) = ["A. B."]
    ∧ reconstruct ((chunkContent "A.  B.").map (fun c => c.content.data)) =
        "A. B.".data
    ∧ "A. B." ≠ "A.  B."
    ∧ reconstruct ((chunkContent "A.  B.").map (fun c => c.content.data)) ≠
        "A.  B.".data := by
  refine ⟨by decide, by decide, by decide, by decide⟩

/-- **C6 (amended).** Empty input yields zero chunks; and for any input
whose first sentence does not exceed the 800-character chunk size,
concatenating the chunk texts in index order with the known overlap
windows removed (each chunk after the first drops the final
`min 200 (previous chunk length)` characters of the previous chunk,
which seeded it) reconstructs the whitespace-normalized text: the
input's sentences rejoined with single spaces.  (A first sentence
longer than 800 characters instead emits a leading empty chunk and a
space-prefixed oversized chunk, and an input with multi-character
sentence separators is only reconstructed up to that normalization, as
the counterexample shows.) -/
theorem chunkContent_reconstructs (content : String) :
    (content = "" → chunkContent content = [])
    ∧ (content.data ≠ [] →
        firstLen (sentSplit content.data) ≤ 800 →
        reconstruct ((chunkContent content).map (fun c => c.content.data)) =
          joinSentences (sentSplit content.data)) := by
  constructor
  · intro h
    subst h
    decide
  · intro hne hfirst
    obtain ⟨s0, rest, hsplit, hs0⟩ := sentSplit_head_ne content.data hne
    rw [hsplit] at hfirst ⊢
    simp only [firstLen] at hfirst
    unfold chunkContent
    rw [hsplit]
    have hjoin : joinS [] s0 = s0 := by simp [joinS]
    have hentry : chunkLoop (s0 :: rest) [] 0 = chunkLoop rest s0 0 := by
      simp only [chunkLoop, hjoin]
      rw [if_pos (by simpa using hfirst)]
    rw [hentry]
    have hfc := chunkLoop_buffer_ne rest s0 0 hs0
    have hfinish : chunkFinish (chunkLoop rest s0 0) =
        (chunkLoop rest s0 0).1 ++
          [((chunkLoop rest s0 0).2.1, (chunkLoop rest s0 0).2.2)] := by
      unfold chunkFinish
      rw [if_pos (by simpa using hfc)]
      by_cases hcs : (chunkLoop rest s0 0).1 = []
      · rw [if_neg (by simp [hcs])]
      · have := chunkLoop_buffer_long rest s0 0 hcs
        rw [if_neg (by omega)]
    rw [hfinish]
    have hmapdata : ((((chunkLoop rest s0 0).1 ++
        [((chunkLoop rest s0 0).2.1, (chunkLoop rest s0 0).2.2)]).map
          (fun p => ({ content := String.mk p.1, chunk_index := p.2 }
            : Chunk))).map (fun c => c.content.data)) =
        allChunks (chunkLoop rest s0 0) := by
      rw [List.map_map]
      unfold allChunks
      simp
    rw [hmapdata, chunkLoop_reconstruct rest s0 0 hs0]
    unfold joinSentences
    rw [List.foldl_cons]
    rfl

/-- Witness for the amended C6: for the two-sentence input
`"Hello world. This is a test."` the reconstruction equals the
sentence join (and equals the input, whose separators are single
spaces). -/
theorem chunkContent_reconstructs_witness :
    reconstruct ((chunkContent "Hello world. This is a test.").map
      (fun c => c.content.data)) =
      joinSentences (sentSplit "Hello world. This is a test.".data)
    ∧ joinSentences (sentSplit "Hello world. This is a test.".data) =
        "Hello world. This is a test.".data :=
  ⟨(chunkContent_reconstructs "Hello world. This is a test.").2
      (by decide) (by decide),
   by decide⟩

end RagKb
